import Mathlib

/-!
# megaannex-go: key-to-path resolution and idempotent transfer

A shallow embedding of `src/main.go`.  Go strings are lists of characters,
the process state (globals, standard input, standard output, the local file
system and the remote object store) is an explicit `World`, and a Go run-time
fault (index out of range, nil dereference) is the result `none`.
-/

namespace MegaAnnex

/-- A Go string, as its sequence of characters. -/
abbrev Str := List Char

/-! ## The pieces of the Go standard library that the program uses -/

namespace strings

/-- Go `unicode.IsSpace`: the white-space characters that `strings.TrimSpace` removes. -/
def isSpace (c : Char) : Bool :=
  let n := c.toNat
  (9 ≤ n && n ≤ 13) || n == 32 || n == 133 || n == 160 || n == 5760 ||
  (8192 ≤ n && n ≤ 8202) || n == 8232 || n == 8233 || n == 8239 || n == 8287 || n == 12288

/-- Go `strings.TrimSpace`: drop leading and trailing white space. -/
def TrimSpace (s : Str) : Str :=
  ((s.dropWhile isSpace).reverse.dropWhile isSpace).reverse

/-- Cut `s` at the first occurrence of `sep`: the text before it and, when `sep`
occurs, the text after it. -/
def cut (sep : Char) : Str → Str × Option Str
  | [] => ([], none)
  | c :: cs =>
    if c = sep then ([], some cs)
    else ((cut sep cs).1.cons c, (cut sep cs).2)

/-- Go `strings.SplitN(s, sep, n)` for a one-character separator and `n ≥ 0`. -/
def SplitN : Str → Char → Nat → List Str
  | _, _, 0 => []
  | s, _, 1 => [s]
  | s, sep, n + 2 =>
    match cut sep s with
    | (a, none) => [a]
    | (a, some b) => a :: SplitN b sep (n + 1)

/-- Go `strings.Split(s, sep)` for a one-character separator: all the pieces. -/
def Split (sep : Char) : Str → List Str
  | [] => [[]]
  | c :: cs =>
    if c = sep then [] :: Split sep cs
    else
      match Split sep cs with
      | [] => [[c]]
      | p :: ps => (c :: p) :: ps

/-- Go `strings.HasPrefix(s, "/")`. -/
def hasSlashPrefix : Str → Bool
  | c :: _ => c == '/'
  | [] => false

/-- Go `strings.HasSuffix(s, "/")`. -/
def hasSlashSuffix (s : Str) : Bool :=
  s.getLast? == some '/'

end strings

namespace path

/-- Join path components with single slashes. -/
def joinSlash : List Str → Str
  | [] => []
  | [a] => a
  | a :: b :: rest => a ++ '/' :: joinSlash (b :: rest)

/-- One step of Go `path.Clean` on the stack of kept components (innermost first). -/
def cleanStep (rooted : Bool) (stack : List Str) (comp : Str) : List Str :=
  if comp = [] ∨ comp = ['.'] then stack
  else if comp = ['.', '.'] then
    match stack with
    | top :: below => if top = ['.', '.'] then comp :: stack else below
    | [] => if rooted then [] else [comp]
  else comp :: stack

/-- Go `path.Clean`: the shortest equivalent path by lexical processing. -/
def Clean (p : Str) : Str :=
  let rooted := strings.hasSlashPrefix p
  let kept := ((strings.Split '/' p).foldl (cleanStep rooted) []).reverse
  let body := joinSlash kept
  if rooted then '/' :: body else if body = [] then ['.'] else body

/-- Go `path.Join` of two elements. -/
def Join (a b : Str) : Str :=
  if a = [] ∧ b = [] then []
  else if a = [] then Clean b
  else Clean (a ++ '/' :: b)

/-- Go `path.Base`: the last element of the path, trailing slashes removed. -/
def Base (p : Str) : Str :=
  if p = [] then ['.']
  else
    let q := (p.reverse.dropWhile (· == '/')).reverse
    match (strings.Split '/' q).getLast? with
    | some [] => ['/']
    | some b => b
    | none => ['/']

/-- Go `path.Dir`: all but the last element of the path, cleaned. -/
def Dir (p : Str) : Str :=
  Clean (joinSlash ((strings.Split '/' p).dropLast ++ (if (strings.Split '/' p).length > 1 then [[]] else [])))

end path

/-! ## Errors -/

/-- The error values of the program (`EINVALID_PATH` ... `EDIR_EXISTS`), those of the
remote-store library that the program compares against, and any other error, carrying
its message. -/
inductive Err where
  | EINVALID_PATH
  | ENOT_FILE
  | ENOT_DIRECTORY
  | EINVALID_SRC
  | EFILE_EXISTS
  | EINVALID_DEST
  | EDIR_EXISTS
  | ENOENT
  | EARGS
  | EWORKER_LIMIT_EXCEEDED
  | other (msg : Str)
  deriving DecidableEq, Repr

/-- The message of an error, as `errors.New` was given it in `src/main.go`. -/
def Err.text : Err → Str
  | .EINVALID_PATH => "Invalid mega path".toList
  | .ENOT_FILE => "Requested object is not a file".toList
  | .ENOT_DIRECTORY => "A non-directory exists at this path".toList
  | .EINVALID_SRC => "Invalid source path".toList
  | .EFILE_EXISTS => "File with same name already exists".toList
  | .EINVALID_DEST => "Invalid destination path".toList
  | .EDIR_EXISTS => "A directory with same name already exists".toList
  | .ENOENT => "Object (typically, node or user) not found".toList
  | .EARGS => "Invalid arguments".toList
  | .EWORKER_LIMIT_EXCEEDED => "Maximum worker limit exceeded".toList
  | .other msg => msg

/-- What `%s` prints for a Go `error` value, `nil` included. -/
def fmtErr : Option Err → Str
  | some e => e.text
  | none => "%!s(<nil>)".toList

/-! ## The remote object store (the collaborator behind `gomega`) -/

/-- The node types of the remote store. -/
inductive NodeType where
  | FILE
  | FOLDER
  | ROOT
  | INBOX
  | TRASH
  deriving DecidableEq, Repr

/-- Modelled from the spec: a RemoteNode of the Remote Object Store (the `gomega.Node`
type is not under src/): a name, a type and a byte size.  A node is identified by its
handle `hash`; its children are the nodes whose `parent` is that handle. -/
structure Node where
  hash : Nat
  parent : Nat
  name : Str
  ntype : NodeType
  size : Nat
  deriving DecidableEq, Repr

/-- Modelled from the spec: the remote tree held by a session (`gomega.MegaFS`, not under
src/): the two well-known roots, unset before a login, and every other node, in the order
in which they were added. -/
structure MegaFS where
  root : Option Node
  trash : Option Node
  nodes : List Node
  deriving DecidableEq, Repr

namespace MegaFS

/-- Modelled from the spec: node accessor `GetRoot`. -/
def GetRoot (fs : MegaFS) : Option Node := fs.root

/-- Modelled from the spec: node accessor `GetTrash`. -/
def GetTrash (fs : MegaFS) : Option Node := fs.trash

/-- The children of the node with handle `h`, oldest first. -/
def children (fs : MegaFS) (h : Nat) : List Node :=
  fs.nodes.filter (fun n => n.parent == h)

/-- Modelled from the spec: listChildren(node) of the Remote Object Store
(`MegaFS.GetChildren`, not under src/): the children of a node; a nil node is an
argument error. -/
def GetChildren (fs : MegaFS) : Option Node → List Node × Option Err
  | none => ([], some Err.EARGS)
  | some n => (fs.children n.hash, none)

/-- The walk of `PathLookup` below the node with handle `h`: at each level the first
child bearing the next name; it stops with `ENOENT` at the first name without one. -/
def walk (fs : MegaFS) : Nat → List Str → List Node × Option Err
  | _, [] => ([], none)
  | h, name :: rest =>
    match (fs.children h).find? (fun n => n.name == name) with
    | none => ([], some Err.ENOENT)
    | some n => (n :: (walk fs n.hash rest).1, (walk fs n.hash rest).2)

/-- Modelled from the spec: resolve(path) of the Remote Object Store
(`MegaFS.PathLookup`, not under src/): the matched nodes ordered from shallowest to
deepest along the segment list, with not-found (`ENOENT`) when only a proper prefix of
the segments exists; a nil root is an argument error. -/
def PathLookup (fs : MegaFS) : Option Node → List Str → List Node × Option Err
  | none, _ => ([], some Err.EARGS)
  | some r, ns => fs.walk r.hash ns

/-- Every node of the tree, the roots first. -/
def allNodes (fs : MegaFS) : List Node :=
  fs.root.toList ++ fs.trash.toList ++ fs.nodes

/-- A handle that no node of the tree bears or names as its parent. -/
def fresh (fs : MegaFS) : Nat :=
  (fs.allNodes.map (fun n => max n.hash n.parent)).foldl max 0 + 1

/-- The tree with one more node, added last. -/
def add (fs : MegaFS) (n : Node) : MegaFS :=
  { fs with nodes := fs.nodes ++ [n] }

end MegaFS

/-- The file system of a session before its login (`gomega.New()`): no roots, no nodes. -/
def emptyFS : MegaFS := { root := none, trash := none, nodes := [] }

/-! ## The local file system -/

/-- What kind of file a path names: `os.FileMode` up to what the program tests
(`Mode()&os.ModeType != 0`, `Mode().IsDir()`). -/
inductive FileKind where
  | regular
  | dir
  | special
  deriving DecidableEq, Repr

/-- The part of `os.FileInfo` that the program reads. -/
structure FileInfo where
  kind : FileKind
  size : Nat
  deriving DecidableEq, Repr

/-- The result of `os.Stat`: the info, the error for which `os.IsNotExist` holds, or
another error (with a nil info). -/
inductive StatResult where
  | ok (info : FileInfo)
  | notExist
  | failed (e : Err)
  deriving DecidableEq, Repr

/-! ## The state of the process -/

/-- A call to a remote operation of the collaborator, with its arguments (a node
argument by its handle). -/
inductive Call where
  | Login (user pass : Str)
  | CreateDir (name : Str) (parent : Nat)
  | UploadFile (srcpath : Str) (parent : Nat) (name : Str)
  | DownloadFile (src : Nat) (dstpath : Str)
  deriving DecidableEq, Repr

/-- The globals of `src/main.go` and the environment the process runs in.
`stdin` holds the lines not read yet, `stdout` the lines written (the `PROGRESS` lines of
the concurrent progress task are not recorded).  `faults` schedules the failures of the
remote operations: each call takes the head (`some e` fails the call with `e`, `none` or
an exhausted schedule lets it succeed).  `calls` records the remote operations invoked,
oldest first. -/
structure World where
  stdin : List Str
  stdout : List Str
  mega : Option MegaFS
  rootfs : Option Node
  pathsplit : Option (List Str)
  username : Str
  password : Str
  folder : Str
  encryption : Str
  stat : Str → StatResult
  account : MegaFS
  getenv : Str → Str
  maxUploadWorkers : Nat
  faults : List (Option Err)
  calls : List Call

/-! ## Constants and line input/output -/

def MEGA_ROOT : Str := "mega".toList

def MEGA_TRASH : Str := "trash".toList

def MEGA_UPLOADWORKERS : Nat := 1

def ANNEX_VERSION : Nat := 1

/-- One `fmt.Printf`/`fmt.Println`: the text goes to standard output. -/
def World.print (w : World) (text : String) (rest : Str) : World :=
  { w with stdout := w.stdout ++ [text.toList ++ rest] }

/-- The newline that ends a printed line. -/
def nl : Str := ['\n']

/-- `getline`: the next line of standard input, split once at a space; `nil` at the end
of the input. -/
def getline (w : World) : Option (List Str) × World :=
  match w.stdin with
  | input :: rest => (some (strings.SplitN input ' ' 2), { w with stdin := rest })
  | [] => (none, w)

/-- `getCreds`: ask for the credentials and store them. -/
def getCreds (w : World) : Bool × World :=
  let w1 := w.print "GETCREDS mycreds" nl
  match getline w1 with
  | (some (t0 :: t1 :: _), w2) =>
    if t0 = "CREDS".toList then
      match strings.SplitN t1 ' ' 2 with
      | u :: p :: _ =>
        if u = [] ∨ p = [] then (false, w2)
        else (true, { w2 with username := u, password := p })
      | _ => (false, w2)
    else (false, w2)
  | (_, w2) => (false, w2)

/-- `getConfig`: ask for a configuration value. -/
def getConfig (w : World) (conf : Str) : Str × World :=
  if conf = [] then ([], w)
  else
    let r := getline (w.print "GETCONFIG " (conf ++ nl))
    (match r.1 with
      | some (t0 :: t1 :: _) => if t0 = "VALUE".toList then t1 else []
      | _ => [],
     r.2)

/-- `getDirHash`: ask for the directory hash of a key. -/
def getDirHash (w : World) (key : Str) : Str × World :=
  let r := getline (w.print "DIRHASH " (key ++ nl))
  (match r.1 with
    | some (t0 :: t1 :: _) => if t0 = "VALUE".toList ∧ t1.length > 0 then t1 else []
    | _ => [],
   r.2)

/-- `getFullPath`: the address text of a key, `"%s:/%s/%s%s"` of the root selector, the
folder, the directory hash and the key. -/
def getFullPath (w : World) (key : Str) : Str × World :=
  (MEGA_ROOT ++ ":/".toList ++ w.folder ++ "/".toList ++ (getDirHash w key).1 ++ key,
   (getDirHash w key).2)

/-- The normalisation of the segment list in `getLookupParams` (the two `if` blocks
after the split): a trailing empty segment is dropped; if the last segment is then empty
again, the list becomes empty when it has one segment and loses its last two otherwise. -/
def dropTrailing (pathsplit : List Str) : List Str :=
  let l := pathsplit.length
  let trailing := decide (l > 0) && decide (pathsplit[l - 1]? = some [])
  let pathsplit1 := if trailing then pathsplit.take (l - 1) else pathsplit
  let l1 := if trailing then l - 1 else l
  if l1 > 0 ∧ pathsplit1[l1 - 1]? = some [] then
    if l1 = 1 then []
    else pathsplit1.take (l1 - 2)
  else pathsplit1

/-- `getLookupParams`: the root node and the segment list of an address text. -/
def getLookupParams (resource : Str) (fs : MegaFS) : Except Err (Option Node × List Str) :=
  match strings.SplitN (strings.TrimSpace resource) ':' 2 with
  | [a0, a1] =>
    if !strings.hasSlashPrefix a1 then .error Err.EINVALID_PATH
    else if a0 = MEGA_ROOT then .ok (fs.GetRoot, dropTrailing ((strings.Split '/' a1).drop 1))
    else if a0 = MEGA_TRASH then .ok (fs.GetTrash, dropTrailing ((strings.Split '/' a1).drop 1))
    else .error Err.EINVALID_PATH
  | _ => .error Err.EINVALID_PATH

/-! ## The remote operations of a session -/

/-- The error of a failed `os.Stat` (`nil` when it succeeded). -/
def statErr (file : Str) : StatResult → Option Err
  | StatResult.ok _ => none
  | StatResult.notExist =>
    some (Err.other ("stat ".toList ++ file ++ ": no such file or directory".toList))
  | StatResult.failed e => some e

/-- Take the head of the fault schedule and record the call. -/
def World.invoke (w : World) (c : Call) : Option Err × World :=
  (w.faults.head?.join, { w with faults := w.faults.tail, calls := w.calls ++ [c] })

/-- Modelled from the spec: login(user, pass) of the Remote Object Store (`Mega.Login`,
not under src/): on success the session holds the tree of the account. -/
def Login (w : World) (user pass : Str) : Option Err × World :=
  match w.invoke (Call.Login user pass) with
  | (some e, w1) => (some e, w1)
  | (none, w1) => (none, { w1 with mega := some w1.account })

/-- Modelled from the spec: createDirectory(name, parent) of the Remote Object Store
(`Mega.CreateDir`, not under src/): a successful call adds a DIRECTORY child called
`name` under `parent` and returns it; a nil parent is an argument error. -/
def CreateDir (fs : MegaFS) (w : World) (name : Str) :
    Option Node → (Option Node × Option Err) × MegaFS × World
  | none => ((none, some Err.EARGS), fs, w)
  | some p =>
    match w.invoke (Call.CreateDir name p.hash) with
    | (some e, w1) => ((none, some e), fs, w1)
    | (none, w1) =>
      let n : Node :=
        { hash := fs.fresh, parent := p.hash, name := name, ntype := NodeType.FOLDER, size := 0 }
      ((some n, none), fs.add n, w1)

/-- Modelled from the spec: uploadFile(localPath, parent, name, progressSink) of the
Remote Object Store (`Mega.UploadFile`, not under src/): a successful call adds under
`parent` a FILE child called `name` with the size of the local file; a nil parent is an
argument error, and a local file that cannot be read fails the call with its error. -/
def UploadFile (fs : MegaFS) (w : World) (srcpath : Str) (name : Str) :
    Option Node → (Option Node × Option Err) × MegaFS × World
  | none => ((none, some Err.EARGS), fs, w)
  | some p =>
    match w.stat srcpath with
    | StatResult.ok info =>
      match w.invoke (Call.UploadFile srcpath p.hash name) with
      | (some e, w1) => ((none, some e), fs, w1)
      | (none, w1) =>
        let n : Node :=
          { hash := fs.fresh, parent := p.hash, name := name, ntype := NodeType.FILE,
            size := info.size }
        ((some n, none), fs.add n, w1)
    | r => ((none, statErr srcpath r), fs, w)

/-- Modelled from the spec: downloadFile(node, localPath, progressSink) of the Remote
Object Store (`Mega.DownloadFile`, not under src/): a successful call leaves at
`dstpath` a plain file of the size of the node; a nil node is an argument error. -/
def DownloadFile (w : World) (dstpath : Str) : Option Node → Option Err × World
  | none => (some Err.EARGS, w)
  | some n =>
    match w.invoke (Call.DownloadFile n.hash dstpath) with
    | (some e, w1) => (some e, w1)
    | (none, w1) =>
      (none, { w1 with
        stat := fun q => if q = dstpath then StatResult.ok ⟨FileKind.regular, n.size⟩
          else w1.stat q })

/-! ## The directory materializer -/

/-- The creation loop of `mkpath`: `remaining` times, create the directory named by the
segment at `ln` under `node`, continue below it with the next segment, and stop at the
first failure.  `none` is an index out of range. -/
def mkpathLoop (pathsplit : List Str) :
    Nat → Nat → Option Node → MegaFS → World → Option (Option Err × MegaFS × World)
  | 0, _, _, fs, w => some (none, fs, w)
  | remaining + 1, ln, node, fs, w =>
    match pathsplit[ln]? with
    | none => none
    | some name =>
      match CreateDir fs w name node with
      | ((_, some e), fs1, w1) => some (some e, fs1, w1)
      | ((node1, none), fs1, w1) => mkpathLoop pathsplit remaining (ln + 1) node1 fs1 w1

/-- `mkpath` on the file system of the session: the returned error (`none` is `nil`),
the file system and the world afterwards.  The outer `none` is a run-time fault. -/
def mkpathFS (fs : MegaFS) (w : World) (dstres : Str) : Option (Option Err × MegaFS × World) :=
  match getLookupParams (MEGA_ROOT ++ ":/".toList ++ dstres) fs with
  | .error e => some (some e, fs, w)
  | .ok (root, pathsplit) =>
    if pathsplit.length > 0 then
      let nodes := (fs.PathLookup root pathsplit).1
      let err := (fs.PathLookup root pathsplit).2
      let lp := pathsplit.length
      let ln := nodes.length
      let node := if nodes.length > 0 then nodes[ln - 1]? else root
      match err with
      | none =>
        match node with
        | none => none
        | some n => if n.ntype ≠ NodeType.FOLDER then some (some Err.ENOT_DIRECTORY, fs, w)
          else some (none, fs, w)
      | some Err.ENOENT => mkpathLoop pathsplit (lp - ln) ln node fs w
      | some e => some (some e, fs, w)
    else some (none, fs, w)

/-- `mkpath`: make sure that every directory of the path exists.  The session handle
`mega` is dereferenced first: without a session the call faults. -/
def mkpath (w : World) (dstres : Str) : Option (Option Err × World) :=
  match w.mega with
  | none => none
  | some fs =>
    match mkpathFS fs w dstres with
    | none => none
    | some (err, fs1, w1) => some (err, { w1 with mega := some fs1 })

/-! ## The handlers -/

/-- Modelled from the spec: `Mega.SetUploadWorkers` of the collaborator (not under
src/), which refuses more workers than the limit of the library. -/
def SetUploadWorkers (w : World) (n : Nat) : Option Err :=
  if n ≤ w.maxUploadWorkers then none else some Err.EWORKER_LIMIT_EXCEEDED

/-- The first two statements of `prepare`: fetch the globals `encryption` and
`folder` from the configuration. -/
def prepareConfig (w : World) : World :=
  let w1 := { (getConfig w "encryption".toList).2 with
    encryption := (getConfig w "encryption".toList).1 }
  { (getConfig w1 "folder".toList).2 with folder := (getConfig w1 "folder".toList).1 }

/-- `prepare`: the bootstrap of the session.  The result is the returned boolean and the
world afterwards; `none` is a run-time fault. -/
def prepare (w : World) (_args : List Str) : Option (Bool × World) :=
  let w2 := prepareConfig w
  if w2.mega ≠ none then
    some (false, w2.print "PREPARE-FAILURE " ("mega instance is not nil".toList ++ nl))
  else
    match getCreds w2 with
    | (false, w3) =>
      some (false, w3.print "PREPARE-FAILURE " ("Couldn't fetch credentials".toList ++ nl))
    | (true, w3) =>
      if w3.folder = [] then
        some (false, w3.print "PREPARE-FAILURE " ("Folder isn't set".toList ++ nl))
      else
        let w4 := { w3 with mega := some emptyFS }
        if SetUploadWorkers w4 MEGA_UPLOADWORKERS = some Err.EWORKER_LIMIT_EXCEEDED then
          some (false, w4.print "PREPARE-FAILURE "
            (Err.EWORKER_LIMIT_EXCEEDED.text ++ " : ".toList ++ (toString MEGA_UPLOADWORKERS).toList
              ++ " <= ".toList ++ (toString w4.maxUploadWorkers).toList ++ nl))
        else
          match Login w4 w4.username w4.password with
          | (some e, w5) =>
            some (false, w5.print "PREPARE-FAILURE "
              ("Couldn't log in! (Reason: ".toList ++ e.text ++ ")".toList ++ nl))
          | (none, w5) =>
            match w5.mega with
            | none => none
            | some fs =>
              match getLookupParams (MEGA_ROOT ++ ":/".toList ++ w5.folder) fs with
              | .error e =>
                some (false, { w5 with rootfs := none, pathsplit := none }.print
                  "PREPARE-FAILURE " (e.text ++ nl))
              | .ok (root, ps) =>
                let w6 := { w5 with rootfs := root, pathsplit := some ps }
                match mkpath w6 w6.folder with
                | none => none
                | some (_, w7) => some (true, w7.print "PREPARE-SUCCESS" nl)

/-- `initRemote`: store the credentials found in the environment. -/
def initRemote (w : World) (_args : List Str) : Option (Bool × World) :=
  let uname := w.getenv "MEGA_USERNAME".toList
  let pswd := w.getenv "MEGA_PASSWORD".toList
  if uname = [] ∨ pswd = [] then
    some (false, w.print "INITREMOTE-FAILURE "
      ("Username and/or password isn't set. Set them with MEGA_USERNAME=\"username\" MEGA_PASSWORD=\"password\"".toList ++ nl))
  else
    some (true, (w.print "SETCREDS mycreds " (uname ++ " ".toList ++ pswd ++ nl)).print
      "INITREMOTE-SUCCESS" nl)

/-- `getAvailability`. -/
def getAvailability (w : World) (_args : List Str) : Option (Bool × World) :=
  some (true, w.print "AVAILABILITY GLOBAL" nl)

/-- `checkPresent`: whether the address of the key resolves completely.  `args[1]` is
read without a length check and `mega` is dereferenced: `none` is the run-time fault. -/
def checkPresent (w : World) (args : List Str) : Option (Bool × World) :=
  match args[1]? with
  | none => none
  | some hash =>
    let (fullpath, w1) := getFullPath w hash
    match w1.mega with
    | none => none
    | some fs =>
      match getLookupParams fullpath fs with
      | .error e =>
        some (false, w1.print "CHECKPRESENT-UNKNOWN " (hash ++ " ".toList ++ e.text ++ nl))
      | .ok (root, pathsplit) =>
        let res : List Node × Option Err :=
          if pathsplit.length > 0 then fs.PathLookup root pathsplit else ([], none)
        if res.2 ≠ none then
          some (false, w1.print "CHECKPRESENT-FAILURE " (hash ++ nl))
        else if pathsplit.length = res.1.length then
          some (true, w1.print "CHECKPRESENT-SUCCESS " (hash ++ nl))
        else
          some (false, w1.print "CHECKPRESENT-FAILURE " (hash ++ nl))

/-- The `switch` of `transfer_store` that picks the parent node of the upload: `none`
when the key resolves completely (the already-stored case), else the node (a nil node
when no case applies). -/
def storeParent (root : Option Node) (nodes : List Node) (lp : Nat) : Option (Option Node) :=
  let ln := nodes.length
  if lp = ln + 1 ∧ ln > 0 then some (nodes[ln - 1]?)
  else if lp = ln then none
  else if ln = 0 ∧ lp = 1 then some root
  else some none

/-- The line that reports a failed Store. -/
def storeFailure (v : World) (key : Str) (err : Option Err) : Option (Bool × World) :=
  some (false, v.print "TRANSFER-FAILURE STORE " (key ++ " ".toList ++ fmtErr err ++ nl))

/-- The line that reports a successful Store. -/
def storeSuccess (v : World) (key : Str) : Option (Bool × World) :=
  some (true, v.print "TRANSFER-SUCCESS STORE " (key ++ nl))

/-- The second half of `transfer_store`, after `mkpath` has succeeded: resolve the
address of the key, reconcile with what exists, upload otherwise.  `fs` is the file
system of the session. -/
def storeResolved (fs : MegaFS) (w3 : World) (key file fullpath : Str) (info : FileInfo) :
    Option (Bool × World) :=
  match getLookupParams fullpath fs with
  | .error _ => none
  | .ok (root, pathsplit) =>
    let res : List Node × Option Err :=
      if pathsplit.length > 0 then fs.PathLookup root pathsplit else ([], none)
    if res.2 ≠ none ∧ res.2 ≠ some Err.ENOENT then storeFailure w3 key res.2
    else
      match storeParent root res.1 pathsplit.length with
      | none => storeSuccess w3 key
      | some node =>
        let name := path.Base file
        match fs.GetChildren node with
        | (_, some e) => storeFailure w3 key (some e)
        | (children, none) =>
          match children.find? (fun c => c.name == name) with
          | some c =>
            if info.size = c.size then storeSuccess w3 key
            else storeFailure w3 key (some Err.EFILE_EXISTS)
          | none =>
            match UploadFile fs w3 file name node with
            | ((_, some e), fs1, w4) => storeFailure { w4 with mega := some fs1 } key (some e)
            | ((_, none), fs1, w4) => storeSuccess { w4 with mega := some fs1 } key

/-- `transfer_store`: store the local file under the address of the key. -/
def transfer_store (w : World) (key file : Str) : Option (Bool × World) :=
  let dirhash := (getDirHash w key).1
  let w1 := (getDirHash w key).2
  let fullpath := (getFullPath w1 key).1
  let w2 := (getFullPath w1 key).2
  match w2.stat file with
  | StatResult.ok info =>
    if info.kind ≠ FileKind.regular then storeFailure w2 key none
    else
      match mkpath w2 (w2.folder ++ "/".toList ++ dirhash) with
      | none => none
      | some (some e, w3) => storeFailure w3 key (some e)
      | some (none, w3) =>
        match w3.mega with
        | none => none
        | some fs => storeResolved fs w3 key file fullpath info
  | r => storeFailure w2 key (statErr file r)

/-- `transfer_retrieve`: fetch the object of the key into the local path. -/
def transfer_retrieve (w : World) (key file : Str) : Option (Bool × World) :=
  let (fullpath, w1) := getFullPath w key
  let failure (v : World) (err : Option Err) : Option (Bool × World) :=
    some (false, v.print "TRANSFER-FAILURE RETRIEVE " (key ++ " ".toList ++ fmtErr err ++ nl))
  let success (v : World) : Option (Bool × World) :=
    some (true, v.print "TRANSFER-SUCCESS RETRIEVE " (key ++ nl))
  let download (v : World) (node : Node) (dst : Str) : Option (Bool × World) :=
    match DownloadFile v dst (some node) with
    | (some e, v1) => failure v1 (some e)
    | (none, v1) => success v1
  match w1.mega with
  | none => none
  | some fs =>
    match getLookupParams fullpath fs with
    | .error e => failure w1 (some e)
    | .ok (root, pathsplit) =>
      let res : List Node × Option Err :=
        if pathsplit.length > 0 then fs.PathLookup root pathsplit
        else ([], some Err.EINVALID_PATH)
      if res.2 ≠ none then failure w1 res.2
      else
        match res.1.getLast? with
        | none => none
        | some node =>
          if node.ntype ≠ NodeType.FILE then failure w1 (some Err.ENOT_FILE)
          else
            match w1.stat file with
            | StatResult.notExist =>
              if w1.stat (path.Dir file) = StatResult.notExist then
                failure w1 (some Err.EINVALID_DEST)
              else download w1 node file
            | StatResult.failed _ => none
            | StatResult.ok info =>
              let afterDir (dst : Str) : Option (Bool × World) :=
                match w1.stat dst with
                | StatResult.notExist => download w1 node dst
                | StatResult.failed _ => none
                | StatResult.ok info1 =>
                  if info1.size = node.size then success w1
                  else failure w1 (some Err.EFILE_EXISTS)
              if info.kind = FileKind.dir then
                if strings.hasSlashSuffix file then
                  match pathsplit.getLast? with
                  | none => none
                  | some last => afterDir (path.Join file last)
                else failure w1 (some Err.EDIR_EXISTS)
              else afterDir file

/-- `transfer`: split the arguments into method, key and file, each read without a
length check (`none` is the index out of range), and run the method. -/
def transfer (w : World) (args : List Str) : Option (Bool × World) :=
  match args[1]? with
  | none => none
  | some a1 =>
    let params := strings.SplitN a1 ' ' 3
    match params[0]?, params[1]?, params[2]? with
    | some method, some key, some file =>
      if method = "STORE".toList then transfer_store w key file
      else if method = "RETRIEVE".toList then transfer_retrieve w key file
      else
        some (false, w.print "TRANSFER-FAILURE "
          (method ++ " ".toList ++ key ++ " Unknown method".toList))
    | _, _, _ => none

/-- `remove`. -/
def remove (w : World) (_args : List Str) : Option (Bool × World) :=
  some (true, w)

/-- A handler of the dispatch table. -/
abbrev callback := World → List Str → Option (Bool × World)

/-- The dispatch table `callbacks`: `none` for a name that is not in the table,
`some none` for the name bound to a nil handler. -/
def callbacks (name : Str) : Option (Option callback) :=
  if name = "PREPARE".toList then some (some prepare)
  else if name = "INITREMOTE".toList then some (some initRemote)
  else if name = "TRANSFER".toList then some (some transfer)
  else if name = "CHECKPRESENT".toList then some (some checkPresent)
  else if name = "REMOVE".toList then some (some remove)
  else if name = "GETCOST".toList then some none
  else if name = "GETAVAILABILITY".toList then some (some getAvailability)
  else none

/-- The body of the loop of `main` for one scanned line: the world in which the loop
continues, or `none` when the handler faults and the process aborts. -/
def mainBody (w : World) (text : Str) : Option World :=
  let input := strings.SplitN text ' ' 2
  match input with
  | [] => some w
  | i0 :: _ =>
    if i0.length = 0 then some w
    else
      match callbacks i0 with
      | some (some cb) => (cb w input).map (fun r => r.2)
      | _ => some (w.print "UNSUPPORTED-REQUEST" nl)

/-- The loop of `main`, at most `fuel` iterations: scan a line, run the body, until
the input is exhausted. -/
def mainLoop : Nat → World → Option World
  | 0, w => some w
  | fuel + 1, w =>
    match w.stdin with
    | [] => some w
    | text :: rest =>
      match mainBody { w with stdin := rest } text with
      | none => none
      | some w1 => mainLoop fuel w1

/-- `main`: announce the protocol version and serve the input. -/
def main (w : World) : Option World :=
  mainLoop (w.stdin.length + 1) (w.print "VERSION " ((toString ANNEX_VERSION).toList ++ nl))

/-! ## Predicates and sample states used by the statements -/


/-- A text that can stand as one path segment: no '/', no ':' and no white space. -/
def segChars (s : Str) : Prop :=
  ∀ c ∈ s, c ≠ '/' ∧ c ≠ ':' ∧ strings.isSpace c = false

def demoRoot : Node := ⟨1, 0, [], NodeType.ROOT, 0⟩
def demoTrash : Node := ⟨2, 0, [], NodeType.TRASH, 0⟩
def demoFS : MegaFS :=
  { root := some demoRoot, trash := some demoTrash,
    nodes := [⟨3, 1, "f".toList, NodeType.FOLDER, 0⟩] }

def demoWorld : World :=
  { stdin := [], stdout := [], mega := some demoFS, rootfs := none, pathsplit := none,
    username := [], password := [], folder := "f".toList, encryption := [],
    stat := fun _ => StatResult.notExist, account := demoFS,
    getenv := fun _ => [], maxUploadWorkers := 30, faults := [], calls := [] }


instance : DecidablePred segChars := fun s => by
  unfold segChars
  infer_instance

instance : DecidableEq (Except Err (Option Node × List Str)) := fun a b =>
  match a, b with
  | .ok x, .ok y => if h : x = y then isTrue (by rw [h]) else isFalse (fun e => h (by injection e))
  | .error x, .error y =>
    if h : x = y then isTrue (by rw [h]) else isFalse (fun e => h (by injection e))
  | .ok _, .error _ => isFalse (fun e => by cases e)
  | .error _, .ok _ => isFalse (fun e => by cases e)

/-- The sample state in which the driver answers the next `DIRHASH` request with the
shard `s`. -/
def shardWorld : World :=
  { demoWorld with stdin := ["VALUE s".toList] }

/-- The text without its trailing white space. -/
def trimRight (s : Str) : Str := (s.reverse.dropWhile strings.isSpace).reverse

/-- A sample state before the bootstrap: no session, the driver answers the two
configuration requests and the credential request, and the login will be refused. -/
def loginFailWorld : World :=
  { demoWorld with
    mega := none
    stdin := ["VALUE none".toList, "VALUE f".toList, "CREDS u p".toList,
      "VALUE none".toList, "VALUE f".toList, "CREDS u p".toList]
    faults := [some (Err.other "denied".toList)] }

/-- A sample session for Retrieve: the folder `f` holds the FILE `k`, and the local
paths `/tmp/d` and `/tmp/d/` name an existing directory. -/
def retrieveWorld : World :=
  { demoWorld with
    mega := some { demoFS with nodes := demoFS.nodes ++ [⟨4, 3, "k".toList, NodeType.FILE, 5⟩] }
    stat := fun q =>
      if q = "/tmp/d".toList ∨ q = "/tmp/d/".toList then StatResult.ok ⟨FileKind.dir, 0⟩
      else StatResult.notExist }

/-- The tree with further nodes, added last. -/
def MegaFS.extend (fs : MegaFS) (extra : List Node) : MegaFS :=
  { fs with nodes := fs.nodes ++ extra }

/-- The handle below which a walk continues after the matched nodes: that of the
deepest matched node, or the start handle when nothing matched. -/
def endHash (h : Nat) (nodes : List Node) : Nat :=
  match nodes.getLast? with
  | some n => n.hash
  | none => h

/-- The path already exists as directories of the tree: its address has no segment,
or every segment resolves and the last node is a FOLDER. -/
def dirReady (fs : MegaFS) (dstres : Str) : Prop :=
  ∃ root segs, getLookupParams (MEGA_ROOT ++ ":/".toList ++ dstres) fs = .ok (root, segs) ∧
    (segs = [] ∨ ∃ nodes last, fs.PathLookup root segs = (nodes, none) ∧
      nodes.getLast? = some last ∧ last.ntype = NodeType.FOLDER)

/-- The sample state after `mkpath` of `f/a/b`: the directories `a` and `b` have been
created below the folder `f`. -/
def madeWorld : World :=
  { demoWorld with
    mega := some (demoFS.extend
      [⟨4, 3, "a".toList, NodeType.FOLDER, 0⟩, ⟨5, 4, "b".toList, NodeType.FOLDER, 0⟩])
    calls := [Call.CreateDir "a".toList 3, Call.CreateDir "b".toList 4] }

/-- Whether a recorded call is an `UploadFile`. -/
def Call.isUpload : Call → Bool
  | Call.UploadFile _ _ _ => true
  | _ => false

/-- The number of `UploadFile` calls among the recorded calls. -/
def uploads (cs : List Call) : Nat :=
  cs.countP Call.isUpload

/-- The node that a successful `UploadFile` of `file` adds below the node `p`. -/
def uploaded (fs : MegaFS) (p : Node) (file : Str) (info : FileInfo) : Node :=
  ⟨fs.fresh, p.hash, path.Base file, NodeType.FILE, info.size⟩

/-- The state in which `transfer_store` runs after its two `DIRHASH` requests. -/
def afterHashes (w : World) (key : Str) : World :=
  (getFullPath (getDirHash w key).2 key).2

/-- The directory that `transfer_store` makes sure exists: the folder and the first
`DIRHASH` reply. -/
def storeDir (w : World) (key : Str) : Str :=
  w.folder ++ "/".toList ++ (getDirHash w key).1

/-- The address text that `transfer_store` resolves, built with the second `DIRHASH`
reply. -/
def storePath (w : World) (key : Str) : Str :=
  (getFullPath (getDirHash w key).2 key).1

/-- A sample state for Store: the local file `/tmp/a.bin` is a plain file of 100
bytes, and the driver answers no `DIRHASH` request (the shard is empty). -/
def storeWorld : World :=
  { demoWorld with
    stat := fun q =>
      if q = "/tmp/a.bin".toList then StatResult.ok ⟨FileKind.regular, 100⟩
      else StatResult.notExist }

/-- The sample state after the Store of the key `k1` from `/tmp/a.bin`: the FILE
`a.bin` has been uploaded below the folder `f`. -/
def storedWorld : World :=
  { storeWorld with
    mega := some (demoFS.add ⟨4, 3, "a.bin".toList, NodeType.FILE, 100⟩)
    stdout := ["DIRHASH k1\n".toList, "DIRHASH k1\n".toList,
      "TRANSFER-SUCCESS STORE k1\n".toList]
    calls := [Call.UploadFile "/tmp/a.bin".toList 3 "a.bin".toList] }

/-- A sample state for Store whose local file bears the name of the key: `/tmp/k1` is a
plain file of 100 bytes. -/
def keyFileWorld : World :=
  { demoWorld with
    stat := fun q =>
      if q = "/tmp/k1".toList then StatResult.ok ⟨FileKind.regular, 100⟩
      else StatResult.notExist }

/-- The sample state after the Store of the key `k1` from `/tmp/k1`. -/
def keyStoredWorld : World :=
  { keyFileWorld with
    mega := some (demoFS.add ⟨4, 3, "k1".toList, NodeType.FILE, 100⟩)
    stdout := ["DIRHASH k1\n".toList, "DIRHASH k1\n".toList,
      "TRANSFER-SUCCESS STORE k1\n".toList]
    calls := [Call.UploadFile "/tmp/k1".toList 3 "k1".toList] }

/-- A sample state for a Store conflict: the folder `f` already holds a FILE `a.bin` of
5 bytes and a FILE `k` of 5 bytes; locally `/tmp/a.bin` has 100 bytes and `/tmp/k` has 7. -/
def conflictWorld : World :=
  { demoWorld with
    mega := some { demoFS with nodes := demoFS.nodes ++
      [⟨4, 3, "a.bin".toList, NodeType.FILE, 5⟩, ⟨5, 3, "k".toList, NodeType.FILE, 5⟩] }
    stat := fun q =>
      if q = "/tmp/a.bin".toList then StatResult.ok ⟨FileKind.regular, 100⟩
      else if q = "/tmp/k".toList then StatResult.ok ⟨FileKind.regular, 7⟩
      else StatResult.notExist }

/-! ## Address parsing -/

theorem dropWhile_isSpace_of_head (c : Char) (s : Str) (h : strings.isSpace c = false) :
    (c :: s).dropWhile strings.isSpace = c :: s := by
  simp [List.dropWhile, h]

theorem TrimSpace_eq_self (s : Str) (c d : Char) (t : Str) (hs : s = c :: t)
    (hc : strings.isSpace c = false) (hl : s.getLast? = some d)
    (hd : strings.isSpace d = false) : strings.TrimSpace s = s := by
  subst hs
  unfold strings.TrimSpace
  rw [dropWhile_isSpace_of_head c t hc]
  have h1 : (c :: t).reverse.head? = some d := by
    rw [List.head?_reverse]; exact hl
  cases hr : (c :: t).reverse with
  | nil => simp at hr
  | cons x xs =>
    rw [hr] at h1
    simp at h1
    subst h1
    rw [dropWhile_isSpace_of_head x xs hd, ← hr, List.reverse_reverse]

theorem Split_no_sep (sep : Char) (s : Str) (h : ∀ c ∈ s, c ≠ sep) :
    strings.Split sep s = [s] := by
  induction s with
  | nil => rfl
  | cons c cs ih =>
    have hc : c ≠ sep := h c (List.mem_cons_self _ _)
    have ih1 := ih (fun x hx => h x (List.mem_cons_of_mem _ hx))
    simp [strings.Split, hc, ih1]

theorem Split_append_sep (sep : Char) (a b : Str) (h : ∀ c ∈ a, c ≠ sep) :
    strings.Split sep (a ++ sep :: b) = a :: strings.Split sep b := by
  induction a with
  | nil => simp [strings.Split]
  | cons c cs ih =>
    have hc : c ≠ sep := h c (List.mem_cons_self _ _)
    have ih1 := ih (fun x hx => h x (List.mem_cons_of_mem _ hx))
    simp [strings.Split, hc, ih1]

theorem getFullPath_text (w : World) (key : Str) :
    (getFullPath w key).1 =
      'm' :: 'e' :: 'g' :: 'a' :: ':' :: '/' :: (w.folder ++ '/' :: ((getDirHash w key).1 ++ key)) := by
  simp [getFullPath, MEGA_ROOT]

theorem getLookupParams_mega (fs : MegaFS) (p : Str) (d : Char)
    (hl : ('m' :: 'e' :: 'g' :: 'a' :: ':' :: '/' :: p).getLast? = some d)
    (hd : strings.isSpace d = false) :
    getLookupParams ('m' :: 'e' :: 'g' :: 'a' :: ':' :: '/' :: p) fs =
      .ok (fs.GetRoot, dropTrailing (strings.Split '/' p)) := by
  unfold getLookupParams
  rw [TrimSpace_eq_self _ 'm' d _ rfl (by decide) hl hd]
  simp [strings.SplitN, strings.cut, strings.hasSlashPrefix, MEGA_ROOT, strings.Split]

/-- C1 (amended): for a folder, shard and key without '/', ':' or white space (key
non-empty), the address text that `getFullPath` builds parses with the primary root and
the segments `[folder, shard ++ key]`: the format puts no separator between the
directory hash and the key, so the shard is the start of the final segment; with an
empty shard the segments are `[folder, key]`. -/
theorem getLookupParams_getFullPath_segments (w : World) (fs : MegaFS) (key shard : Str)
    (hf : segChars w.folder) (hs : segChars shard) (hk : segChars key) (hk0 : key ≠ [])
    (hshard : (getDirHash w key).1 = shard) :
    getLookupParams (getFullPath w key).1 fs = .ok (fs.GetRoot, [w.folder, shard ++ key]) := by
  rw [getFullPath_text, hshard]
  have hne : shard ++ key ≠ [] := by simp [hk0]
  obtain ⟨d, hd⟩ : ∃ d, key.getLast? = some d := by
    cases h : key.getLast? with
    | none => simp at h; exact absurd h hk0
    | some d => exact ⟨d, rfl⟩
  have hdk : d ∈ key := List.mem_of_getLast?_eq_some hd
  have hl : ('m' :: 'e' :: 'g' :: 'a' :: ':' :: '/' :: (w.folder ++ '/' :: (shard ++ key))).getLast?
      = some d := by
    have : ('m' :: 'e' :: 'g' :: 'a' :: ':' :: '/' :: (w.folder ++ '/' :: (shard ++ key)))
        = ('m' :: 'e' :: 'g' :: 'a' :: ':' :: '/' :: (w.folder ++ '/' :: shard)) ++ key := by simp
    rw [this, List.getLast?_append, hd]; simp
  rw [getLookupParams_mega fs _ d hl (hk d hdk).2.2]
  have hsk : ∀ c ∈ shard ++ key, c ≠ '/' := by
    intro c hc
    rcases List.mem_append.1 hc with h | h
    · exact (hs c h).1
    · exact (hk c h).1
  rw [Split_append_sep '/' w.folder _ (fun c hc => (hf c hc).1), Split_no_sep '/' _ hsk]
  simp [dropTrailing, hne]


theorem getLookupParams_ok (text : Str) (fs : MegaFS) (root : Option Node) (segs : List Str)
    (h : getLookupParams text fs = .ok (root, segs)) :
    ∃ a0 a1, strings.SplitN (strings.TrimSpace text) ':' 2 = [a0, a1] ∧
      segs = dropTrailing ((strings.Split '/' a1).drop 1) := by
  unfold getLookupParams at h
  split at h
  · rename_i a0 a1 hsplit
    refine ⟨a0, a1, hsplit, ?_⟩
    split at h
    · cases h
    · split at h
      · simp only [Except.ok.injEq, Prod.mk.injEq] at h; exact h.2.symm
      · split at h
        · simp only [Except.ok.injEq, Prod.mk.injEq] at h; exact h.2.symm
        · cases h
  · cases h

theorem take_length_sub_two (l : List Str) :
    l.take (l.length - 2) = l.dropLast.dropLast := by
  rw [List.dropLast_eq_take, List.dropLast_eq_take, List.take_take]
  congr 1
  simp
  omega

theorem dropTrailing_eq (ps : List Str) :
    dropTrailing ps =
      (if (if ps.getLast? = some [] then ps.dropLast else ps).getLast? = some [] then
        (if (if ps.getLast? = some [] then ps.dropLast else ps).length = 1 then []
         else (if ps.getLast? = some [] then ps.dropLast else ps).dropLast.dropLast)
       else (if ps.getLast? = some [] then ps.dropLast else ps)) := by
  unfold dropTrailing
  simp only [← List.getLast?_eq_getElem?]
  by_cases h : ps.getLast? = some []
  · have hl : ps.length > 0 := by
      cases ps with
      | nil => simp at h
      | cons a b => simp
    have hlen : (List.take (ps.length - 1) ps).length = ps.length - 1 := by simp
    simp only [h, hl, decide_True, Bool.and_self, if_true, ← List.dropLast_eq_take]
    have e : ps.dropLast[ps.length - 1 - 1]? = ps.dropLast.getLast? := by
      rw [List.getLast?_eq_getElem?]; simp
    rw [e]
    by_cases h2 : ps.dropLast.getLast? = some []
    · have hl2 : ps.length - 1 > 0 := by
        cases hd : ps.dropLast with
        | nil => rw [hd] at h2; simp at h2
        | cons a b =>
          have := congrArg List.length hd
          simp at this; omega
      simp only [h2, hl2, and_self, if_true, List.length_dropLast]
      split
      · rfl
      · have := take_length_sub_two ps.dropLast
        simp only [List.length_dropLast] at this
        exact this
    · simp [h2]
  · simp only [h, decide_False, Bool.and_false, if_false, Bool.false_eq_true]
    by_cases h2 : ps.getLast? = some []
    · exact absurd h2 h
    · rw [if_neg]
      rintro ⟨_, h3⟩
      rw [← List.getLast?_eq_getElem?] at h3
      exact h h3

theorem getLast?_append_replicate_succ (xs : List Str) (t : Nat) :
    (xs ++ List.replicate (t + 1) ([] : Str)).getLast? = some [] := by
  rw [List.replicate_succ', ← List.append_assoc, List.getLast?_append]
  simp

theorem dropLast_append_replicate_succ (xs : List Str) (t : Nat) :
    (xs ++ List.replicate (t + 1) ([] : Str)).dropLast = xs ++ List.replicate t [] := by
  rw [List.replicate_succ', ← List.append_assoc, List.dropLast_concat]

theorem getLast?_ne_of_forall (xs : List Str) (hx : ∀ x ∈ xs, x ≠ []) :
    xs.getLast? ≠ some [] := by
  intro h
  exact hx [] (List.mem_of_getLast?_eq_some h) rfl

theorem dropTrailing_clean (xs : List Str) (t : Nat) (hx : ∀ x ∈ xs, x ≠ []) (ht : t ≤ 3) :
    (dropTrailing (xs ++ List.replicate t [])).getLast? ≠ some [] := by
  have h0 := getLast?_ne_of_forall xs hx
  have h1 : xs.dropLast.getLast? ≠ some [] :=
    getLast?_ne_of_forall _ (fun x h => hx x (List.mem_of_mem_dropLast h))
  rw [dropTrailing_eq]
  rcases t with _ | _ | _ | _ | t
  · simp [h0]
  · simp only [getLast?_append_replicate_succ, dropLast_append_replicate_succ, if_true]
    simp [h0]
  · simp only [getLast?_append_replicate_succ, dropLast_append_replicate_succ, if_true]
    split
    · simp
    · simpa using h1
  · simp only [getLast?_append_replicate_succ, dropLast_append_replicate_succ, if_true]
    split
    · simp
    · simpa using h0
  · omega


/-- C1, witness: folder `f`, shard `s`, key `k`. -/
theorem getLookupParams_getFullPath_segments_witness :
    getLookupParams (getFullPath shardWorld "k".toList).1 demoFS
      = .ok (demoFS.GetRoot, [shardWorld.folder, "s".toList ++ "k".toList]) :=
  getLookupParams_getFullPath_segments shardWorld demoFS "k".toList "s".toList
    (by decide) (by decide) (by decide) (by decide) (by decide)

/-- C1, counterexample: for folder `f`, shard `s` and key `k` the parse is not
`[f, s, k]` (it is `[f, sk]`). -/
theorem getLookupParams_getFullPath_not_three_segments :
    segChars shardWorld.folder ∧ segChars "s".toList ∧ segChars "k".toList ∧
    (getDirHash shardWorld "k".toList).1 = "s".toList ∧
    getLookupParams (getFullPath shardWorld "k".toList).1 demoFS
      = .ok (demoFS.GetRoot, ["f".toList, "sk".toList]) ∧
    getLookupParams (getFullPath shardWorld "k".toList).1 demoFS
      ≠ .ok (demoFS.GetRoot, [shardWorld.folder, "s".toList, "k".toList]) := by
  decide

/-- C2 (amended): when `getLookupParams` succeeds on a text whose path part, split at
'/', consists of non-empty segments followed by at most three empty ones (no doubled
slash inside the path and at most three trailing slashes), the returned segment list
does not end with an empty string. -/
theorem getLookupParams_no_trailing_empty (text : Str) (fs : MegaFS) (root : Option Node)
    (segs : List Str) (a0 a1 : Str) (xs : List Str) (t : Nat)
    (h : getLookupParams text fs = .ok (root, segs))
    (hsplit : strings.SplitN (strings.TrimSpace text) ':' 2 = [a0, a1])
    (hpath : strings.Split '/' a1 = [] :: (xs ++ List.replicate t []))
    (hx : ∀ x ∈ xs, x ≠ []) (ht : t ≤ 3) :
    segs.getLast? ≠ some [] := by
  obtain ⟨b0, b1, hb, hsegs⟩ := getLookupParams_ok text fs root segs h
  rw [hsplit] at hb
  simp only [List.cons.injEq, and_true] at hb
  obtain ⟨_, rfl⟩ := hb
  rw [hsegs, hpath]
  exact dropTrailing_clean xs t hx ht

/-- C2, witness: the text `mega:/a///` parses to `[a]`. -/
theorem getLookupParams_no_trailing_empty_witness :
    getLookupParams "mega:/a///".toList demoFS = .ok (demoFS.root, ["a".toList]) ∧
    (["a".toList] : List Str).getLast? ≠ some [] :=
  ⟨by decide,
    getLookupParams_no_trailing_empty "mega:/a///".toList demoFS demoFS.root ["a".toList]
      "mega".toList "/a///".toList ["a".toList] 3 (by decide) (by decide) (by decide)
      (by decide) (by decide)⟩

/-- C2, counterexample: `mega:/a////` parses successfully to `[a, ""]`, which ends with
an empty string. -/
theorem getLookupParams_trailing_empty_four_slashes :
    ∃ root segs, getLookupParams "mega:/a////".toList demoFS = .ok (root, segs) ∧
      segs.getLast? = some [] :=
  ⟨demoFS.root, ["a".toList, []], by decide, by decide⟩

theorem dropWhile_append_singleton (p : Char → Bool) (l : Str) (c : Char) (hc : p c = false) :
    (l ++ [c]).dropWhile p = l.dropWhile p ++ [c] := by
  induction l with
  | nil => simp [List.dropWhile, hc]
  | cons x xs ih =>
    by_cases hx : p x = true
    · simp [List.dropWhile, hx, ih]
    · simp [List.dropWhile, hx]



theorem trimRight_cons (c : Char) (s : Str) (hc : strings.isSpace c = false) :
    trimRight (c :: s) = c :: trimRight s := by
  unfold trimRight
  rw [List.reverse_cons, dropWhile_append_singleton _ _ _ hc]
  simp

theorem TrimSpace_cons (c : Char) (s : Str) (hc : strings.isSpace c = false) :
    strings.TrimSpace (c :: s) = c :: trimRight s := by
  unfold strings.TrimSpace
  rw [dropWhile_isSpace_of_head c s hc]
  exact trimRight_cons c s hc

theorem getLookupParams_mega_any (fs : MegaFS) (p : Str) :
    getLookupParams ('m' :: 'e' :: 'g' :: 'a' :: ':' :: '/' :: p) fs =
      .ok (fs.GetRoot, dropTrailing (strings.Split '/' (trimRight p))) := by
  unfold getLookupParams
  rw [TrimSpace_cons _ _ (by decide), trimRight_cons _ _ (by decide),
    trimRight_cons _ _ (by decide), trimRight_cons _ _ (by decide),
    trimRight_cons _ _ (by decide), trimRight_cons _ _ (by decide)]
  simp [strings.SplitN, strings.cut, strings.hasSlashPrefix, MEGA_ROOT, strings.Split]

theorem getFullPath_parses (w : World) (key : Str) (fs : MegaFS) :
    ∃ segs, getLookupParams (getFullPath w key).1 fs = .ok (fs.GetRoot, segs) := by
  rw [getFullPath_text]
  exact ⟨_, getLookupParams_mega_any fs _⟩

@[simp] theorem print_mega (w : World) (t : String) (r : Str) : (w.print t r).mega = w.mega := rfl
@[simp] theorem print_stat (w : World) (t : String) (r : Str) : (w.print t r).stat = w.stat := rfl
@[simp] theorem print_calls (w : World) (t : String) (r : Str) : (w.print t r).calls = w.calls := rfl
@[simp] theorem print_faults (w : World) (t : String) (r : Str) : (w.print t r).faults = w.faults := rfl
@[simp] theorem print_folder (w : World) (t : String) (r : Str) : (w.print t r).folder = w.folder := rfl
@[simp] theorem print_stdout (w : World) (t : String) (r : Str) :
    (w.print t r).stdout = w.stdout ++ [t.toList ++ r] := rfl

theorem getline_fields (w : World) :
    (getline w).2.mega = w.mega ∧ (getline w).2.stat = w.stat ∧ (getline w).2.calls = w.calls ∧
    (getline w).2.faults = w.faults ∧ (getline w).2.folder = w.folder ∧
    (getline w).2.stdout = w.stdout := by
  unfold getline
  cases w.stdin <;> simp

theorem getDirHash_fields (w : World) (key : Str) :
    (getDirHash w key).2.mega = w.mega ∧ (getDirHash w key).2.stat = w.stat ∧
    (getDirHash w key).2.calls = w.calls ∧ (getDirHash w key).2.faults = w.faults ∧
    (getDirHash w key).2.folder = w.folder ∧
    (getDirHash w key).2.stdout = w.stdout ++ ["DIRHASH ".toList ++ (key ++ nl)] := by
  have h := getline_fields (w.print "DIRHASH " (key ++ nl))
  simp only [print_mega, print_stat, print_calls, print_faults, print_folder, print_stdout] at h
  exact h

theorem getFullPath_snd (w : World) (key : Str) :
    (getFullPath w key).2 = (getDirHash w key).2 := by
  rfl


theorem walk_nil (fs : MegaFS) (h : Nat) : fs.walk h [] = ([], none) := by
  simp [MegaFS.walk]

/-- What `checkPresent` returns and prints, given a session whose roots are set. -/
theorem checkPresent_spec (w : World) (args : List Str) (key : Str) (fs : MegaFS) (r : Node)
    (hargs : args[1]? = some key) (hmega : w.mega = some fs) (hroot : fs.root = some r) :
    ∃ segs w1, getLookupParams (getFullPath w key).1 fs = .ok (fs.GetRoot, segs) ∧
      checkPresent w args =
        some (decide ((fs.PathLookup fs.GetRoot segs).2 = none ∧
          (fs.PathLookup fs.GetRoot segs).1.length = segs.length), w1) ∧
      w1.stdout = w.stdout ++ ["DIRHASH ".toList ++ (key ++ nl),
        (if (fs.PathLookup fs.GetRoot segs).2 = none ∧
            (fs.PathLookup fs.GetRoot segs).1.length = segs.length
          then "CHECKPRESENT-SUCCESS ".toList else "CHECKPRESENT-FAILURE ".toList)
          ++ (key ++ nl)] := by
  obtain ⟨segs, hsegs⟩ := getFullPath_parses w key fs
  have hf := getDirHash_fields w key
  have hm : (getFullPath w key).2.mega = some fs := by
    rw [getFullPath_snd, hf.1, hmega]
  have hout : (getFullPath w key).2.stdout = w.stdout ++ ["DIRHASH ".toList ++ (key ++ nl)] := by
    rw [getFullPath_snd]; exact hf.2.2.2.2.2
  have hres : (if segs.length > 0 then fs.PathLookup fs.GetRoot segs else ([], none))
      = fs.PathLookup fs.GetRoot segs := by
    split
    · rfl
    · rename_i h
      have : segs = [] := by
        cases segs with
        | nil => rfl
        | cons a b => simp at h
      subst this
      simp [MegaFS.PathLookup, MegaFS.GetRoot, hroot, walk_nil]
  by_cases hfull : (fs.PathLookup fs.GetRoot segs).2 = none ∧
      (fs.PathLookup fs.GetRoot segs).1.length = segs.length
  · refine ⟨segs, (getFullPath w key).2.print "CHECKPRESENT-SUCCESS " (key ++ nl), hsegs, ?_, ?_⟩
    · unfold checkPresent
      simp only [hargs, hm, hsegs, hres]
      simp [hfull.1, hfull.2, hfull]
    · simp [hfull, hout]
  · refine ⟨segs, (getFullPath w key).2.print "CHECKPRESENT-FAILURE " (key ++ nl), hsegs, ?_, ?_⟩
    · unfold checkPresent
      simp only [hargs, hm, hsegs, hres]
      by_cases he : (fs.PathLookup fs.GetRoot segs).2 = none
      · have hl : ¬ (fs.PathLookup fs.GetRoot segs).1.length = segs.length := fun h => hfull ⟨he, h⟩
        have hl2 : ¬ segs.length = (fs.PathLookup fs.GetRoot segs).1.length := fun h => hl h.symm
        simp [he, hl, hl2]
      · simp [he]
    · simp [hfull, hout]

/-- C6: with a session whose roots are set, `checkPresent` of a key prints, after the
`DIRHASH` request, exactly one outcome line: `CHECKPRESENT-SUCCESS <key>` when the
lookup of the address of the key returns no error and matches as many nodes as the
address has segments, `CHECKPRESENT-FAILURE <key>` otherwise; the address built by
`getFullPath` always parses, so `CHECKPRESENT-UNKNOWN` is not printed. -/
theorem checkPresent_outcome (w : World) (args : List Str) (key : Str) (fs : MegaFS) (r : Node)
    (hargs : args[1]? = some key) (hmega : w.mega = some fs) (hroot : fs.root = some r) :
    ∃ segs w1, getLookupParams (getFullPath w key).1 fs = .ok (fs.GetRoot, segs) ∧
      checkPresent w args =
        some (decide ((fs.PathLookup fs.GetRoot segs).2 = none ∧
          (fs.PathLookup fs.GetRoot segs).1.length = segs.length), w1) ∧
      w1.stdout = w.stdout ++ ["DIRHASH ".toList ++ (key ++ nl),
        (if (fs.PathLookup fs.GetRoot segs).2 = none ∧
            (fs.PathLookup fs.GetRoot segs).1.length = segs.length
          then "CHECKPRESENT-SUCCESS ".toList else "CHECKPRESENT-FAILURE ".toList)
          ++ (key ++ nl)] :=
  checkPresent_spec w args key fs r hargs hmega hroot

/-- C6, witness: in the sample state the key `k` is absent below the folder `f`. -/
theorem checkPresent_outcome_witness :
    ∃ segs w1, getLookupParams (getFullPath demoWorld "k".toList).1 demoFS
        = .ok (demoFS.GetRoot, segs) ∧
      checkPresent demoWorld ["CHECKPRESENT".toList, "k".toList] =
        some (decide ((demoFS.PathLookup demoFS.GetRoot segs).2 = none ∧
          (demoFS.PathLookup demoFS.GetRoot segs).1.length = segs.length), w1) ∧
      w1.stdout = demoWorld.stdout ++ ["DIRHASH ".toList ++ ("k".toList ++ nl),
        (if (demoFS.PathLookup demoFS.GetRoot segs).2 = none ∧
            (demoFS.PathLookup demoFS.GetRoot segs).1.length = segs.length
          then "CHECKPRESENT-SUCCESS ".toList else "CHECKPRESENT-FAILURE ".toList)
          ++ ("k".toList ++ nl)] :=
  checkPresent_outcome demoWorld ["CHECKPRESENT".toList, "k".toList] "k".toList demoFS demoRoot
    (by decide) rfl rfl

/-- C9: the loop body faults (index out of range) on recognised commands that lack
arguments, `TRANSFER`, `TRANSFER STORE k` and `CHECKPRESENT`, and `main` then aborts
instead of serving the next line. -/
theorem mainBody_faults_on_missing_arguments :
    (mainBody demoWorld "TRANSFER".toList).isNone = true ∧
    (mainBody demoWorld "TRANSFER STORE k".toList).isNone = true ∧
    (mainBody demoWorld "CHECKPRESENT".toList).isNone = true ∧
    (main { demoWorld with stdin := ["TRANSFER".toList, "GETAVAILABILITY".toList] }).isNone
      = true ∧
    (main { demoWorld with stdin := ["FOO bar".toList, "GETAVAILABILITY".toList] }).isSome
      = true := by
  decide

theorem getConfig_mega (w : World) (conf : Str) : (getConfig w conf).2.mega = w.mega := by
  unfold getConfig
  split
  · rfl
  · exact (getline_fields _).1

theorem prepareConfig_mega (w : World) : (prepareConfig w).mega = w.mega := by
  unfold prepareConfig
  simp only
  rw [getConfig_mega]
  simp only
  rw [getConfig_mega]

theorem getCreds_mega_folder (w : World) :
    (getCreds w).2.mega = w.mega ∧ (getCreds w).2.folder = w.folder := by
  have h := getline_fields (w.print "GETCREDS mycreds" nl)
  unfold getCreds
  simp only
  split
  · rename_i heq
    have h1 := congrArg Prod.snd heq
    simp only at h1
    subst h1
    split
    · split
      · split <;> simp [h.1, h.2.2.2.2.1]
      · simp [h.1, h.2.2.2.2.1]
    · simp [h.1, h.2.2.2.2.1]
  · rename_i heq
    have h1 := congrArg Prod.snd heq
    simp only at h1
    subst h1
    simp [h.1, h.2.2.2.2.1]

/-- C10 (amended): a `PREPARE` that starts with no session and fails because the
credentials are not obtained or because the folder is not set prints a `PREPARE-FAILURE`
line and leaves the session handle unset, so that the guard `mega != nil` of a subsequent
`PREPARE` (the rejection `mega instance is not nil`) does not apply. -/
theorem prepare_early_failure_leaves_session_unset (w : World) (args : List Str)
    (hm : w.mega = none)
    (h : (getCreds (prepareConfig w)).1 = false ∨ (prepareConfig w).folder = []) :
    ∃ w1 reason, prepare w args = some (false, w1) ∧
      w1.stdout.getLast? = some ("PREPARE-FAILURE ".toList ++ (reason ++ nl)) ∧
      w1.mega = none ∧ (prepareConfig w1).mega = none := by
  have hm2 : (prepareConfig w).mega = none := by rw [prepareConfig_mega, hm]
  have hc := getCreds_mega_folder (prepareConfig w)
  unfold prepare
  simp only [hm2, ne_eq, not_true_eq_false, if_false]
  cases hcr : getCreds (prepareConfig w) with
  | mk b w3 =>
    rw [hcr] at hc h
    simp only at hc h
    cases b with
    | false =>
      exact ⟨_, "Couldn't fetch credentials".toList, rfl, by simp,
        by simp [hc.1, hm2], by rw [prepareConfig_mega]; simp [hc.1, hm2]⟩
    | true =>
      rcases h with h | h
      · cases h
      · simp only [hc.2, h, if_true]
        exact ⟨_, "Folder isn't set".toList, rfl, by simp,
          by simp [hc.1, hm2], by rw [prepareConfig_mega]; simp [hc.1, hm2]⟩

/-- C10, witness: without any reply from the driver the credentials are not obtained. -/
theorem prepare_early_failure_leaves_session_unset_witness :
    ∃ w1 reason, prepare { demoWorld with mega := none } [] = some (false, w1) ∧
      w1.stdout.getLast? = some ("PREPARE-FAILURE ".toList ++ (reason ++ nl)) ∧
      w1.mega = none ∧ (prepareConfig w1).mega = none :=
  prepare_early_failure_leaves_session_unset { demoWorld with mega := none } [] rfl
    (Or.inl (by decide))

/-- C10, counterexample: a `PREPARE` that starts with no session and fails at the login
leaves the session handle set, and the next `PREPARE` is rejected with
`mega instance is not nil`. -/
theorem prepare_login_failure_keeps_session :
    loginFailWorld.mega = none ∧
    ∃ w1 w2, prepare loginFailWorld ["PREPARE".toList] = some (false, w1) ∧
      w1.stdout.getLast? =
        some "PREPARE-FAILURE Couldn't log in! (Reason: denied)\n".toList ∧
      w1.mega ≠ none ∧
      prepare w1 ["PREPARE".toList] = some (false, w2) ∧
      w2.stdout.getLast? = some "PREPARE-FAILURE mega instance is not nil\n".toList :=
  ⟨rfl, _, _, rfl, by decide, by decide, rfl, by decide⟩

theorem getFullPath_fields (w : World) (key : Str) :
    (getFullPath w key).2.mega = w.mega ∧ (getFullPath w key).2.stat = w.stat ∧
    (getFullPath w key).2.calls = w.calls ∧ (getFullPath w key).2.faults = w.faults ∧
    (getFullPath w key).2.folder = w.folder ∧
    (getFullPath w key).2.stdout = w.stdout ++ ["DIRHASH ".toList ++ (key ++ nl)] := by
  rw [getFullPath_snd]
  exact getDirHash_fields w key

theorem DownloadFile_some (v : World) (dst : Str) (n : Node) :
    (DownloadFile v dst (some n)).1 = v.faults.head?.join ∧
    (DownloadFile v dst (some n)).2.calls = v.calls ++ [Call.DownloadFile n.hash dst] ∧
    (DownloadFile v dst (some n)).2.stdout = v.stdout := by
  unfold DownloadFile World.invoke
  generalize v.faults.head?.join = x
  cases x <;> simp

/-- C8: a Retrieve whose key resolves fully to a FILE node and whose destination is an
existing local directory.  Without a trailing '/' it fails with `A directory with same
name already exists` and invokes no download.  With a trailing '/' the destination is
`path.Join` of the directory and the last segment of the address; when nothing exists
there, `DownloadFile` is invoked once, with exactly that path, and when the download
succeeds the outcome is `TRANSFER-SUCCESS RETRIEVE <key>`. -/
theorem transfer_retrieve_into_directory (w : World) (key file : Str) (fs : MegaFS)
    (root : Option Node) (segs : List Str) (nodes : List Node) (node : Node) (info : FileInfo)
    (hmega : w.mega = some fs)
    (hparse : getLookupParams (getFullPath w key).1 fs = .ok (root, segs))
    (hlook : fs.PathLookup root segs = (nodes, none))
    (hfull : nodes.length = segs.length)
    (hlast : nodes.getLast? = some node)
    (hfile : node.ntype = NodeType.FILE)
    (hstat : w.stat file = StatResult.ok info) (hdir : info.kind = FileKind.dir) :
    (strings.hasSlashSuffix file = false →
      ∃ w1, transfer_retrieve w key file = some (false, w1) ∧
        w1.stdout = w.stdout ++ ["DIRHASH ".toList ++ (key ++ nl),
          "TRANSFER-FAILURE RETRIEVE ".toList ++
            (key ++ " ".toList ++ Err.EDIR_EXISTS.text ++ nl)] ∧
        w1.calls = w.calls) ∧
    (strings.hasSlashSuffix file = true →
      ∃ last, segs.getLast? = some last ∧
        (w.stat (path.Join file last) = StatResult.notExist →
          ∃ b w1, transfer_retrieve w key file = some (b, w1) ∧
            w1.calls = w.calls ++ [Call.DownloadFile node.hash (path.Join file last)] ∧
            (w.faults.head?.join = none →
              b = true ∧
              w1.stdout = w.stdout ++ ["DIRHASH ".toList ++ (key ++ nl),
                "TRANSFER-SUCCESS RETRIEVE ".toList ++ (key ++ nl)]))) := by
  obtain ⟨hm1, hs1, hc1, hf1, -, ho1⟩ := getFullPath_fields w key
  have hnodes : nodes ≠ [] := by
    intro h; rw [h] at hlast; simp at hlast
  have hpos : segs.length > 0 := by
    rw [← hfull]; exact List.length_pos.2 hnodes
  have hsegs : segs ≠ [] := List.length_pos.1 hpos
  constructor
  · intro hsuf
    refine ⟨(getFullPath w key).2.print "TRANSFER-FAILURE RETRIEVE "
      (key ++ " ".toList ++ fmtErr (some Err.EDIR_EXISTS) ++ nl), ?_, ?_, ?_⟩
    · unfold transfer_retrieve
      simp only [hm1, hmega, hparse, hpos, if_true, hlook, hlast, hfile, hs1, hstat, hdir, hsuf]
      simp
    · simp [ho1, fmtErr]
    · simp [hc1]
  · intro hsuf
    obtain ⟨last, hl⟩ : ∃ last, segs.getLast? = some last := by
      cases h : segs.getLast? with
      | none => simp at h; exact absurd h hsegs
      | some x => exact ⟨x, rfl⟩
    refine ⟨last, hl, ?_⟩
    intro hne
    have hD := DownloadFile_some (getFullPath w key).2 (path.Join file last) node
    rw [hf1, hc1, ho1] at hD
    cases hres : DownloadFile (getFullPath w key).2 (path.Join file last) (some node) with
    | mk e v1 =>
      rw [hres] at hD
      simp only at hD
      obtain ⟨he, hcalls, hout⟩ := hD
      have hrun : transfer_retrieve w key file =
          match e with
          | some e1 => some (false, v1.print "TRANSFER-FAILURE RETRIEVE "
              (key ++ " ".toList ++ fmtErr (some e1) ++ nl))
          | none => some (true, v1.print "TRANSFER-SUCCESS RETRIEVE " (key ++ nl)) := by
        unfold transfer_retrieve
        simp only [hm1, hmega, hparse, hpos, if_true, hlook, hlast, hfile, hs1, hstat, hdir, hsuf,
          hl, hne, hres]
        cases e <;> simp
      cases e with
      | some e1 =>
        refine ⟨false, _, hrun, by simp [hcalls], ?_⟩
        intro h; rw [h] at he; cases he
      | none =>
        refine ⟨true, _, hrun, by simp [hcalls], ?_⟩
        intro _
        exact ⟨rfl, by simp [hout]⟩




/-- C8, witness: retrieving `k` into the directory `/tmp/d` fails, into `/tmp/d/` downloads
to `/tmp/d/k`. -/
theorem transfer_retrieve_into_directory_witness :
    (∃ w1, transfer_retrieve retrieveWorld "k".toList "/tmp/d".toList = some (false, w1) ∧
      w1.calls = []) ∧
    (∃ w1, transfer_retrieve retrieveWorld "k".toList "/tmp/d/".toList = some (true, w1) ∧
      w1.calls = [Call.DownloadFile 4 "/tmp/d/k".toList]) := by
  have h1 := (transfer_retrieve_into_directory retrieveWorld "k".toList "/tmp/d".toList
    { demoFS with nodes := demoFS.nodes ++ [⟨4, 3, "k".toList, NodeType.FILE, 5⟩] }
    (some demoRoot) ["f".toList, "k".toList]
    [⟨3, 1, "f".toList, NodeType.FOLDER, 0⟩, ⟨4, 3, "k".toList, NodeType.FILE, 5⟩]
    ⟨4, 3, "k".toList, NodeType.FILE, 5⟩ ⟨FileKind.dir, 0⟩
    rfl (by decide) (by decide) (by decide) (by decide) (by decide) (by decide) (by decide)).1
    (by decide)
  have h2 := (transfer_retrieve_into_directory retrieveWorld "k".toList "/tmp/d/".toList
    { demoFS with nodes := demoFS.nodes ++ [⟨4, 3, "k".toList, NodeType.FILE, 5⟩] }
    (some demoRoot) ["f".toList, "k".toList]
    [⟨3, 1, "f".toList, NodeType.FOLDER, 0⟩, ⟨4, 3, "k".toList, NodeType.FILE, 5⟩]
    ⟨4, 3, "k".toList, NodeType.FILE, 5⟩ ⟨FileKind.dir, 0⟩
    rfl (by decide) (by decide) (by decide) (by decide) (by decide) (by decide) (by decide)).2
    (by decide)
  obtain ⟨w1, hw1, -, hc1⟩ := h1
  obtain ⟨last, hl, h2⟩ := h2
  have hlast : last = "k".toList := by
    have : (["f".toList, "k".toList] : List Str).getLast? = some "k".toList := by decide
    rw [this] at hl
    exact (Option.some.inj hl).symm
  subst hlast
  obtain ⟨b, w2, hw2, hc2, hb⟩ := h2 (by decide)
  obtain ⟨hb1, -⟩ := hb (by decide)
  subst hb1
  exact ⟨⟨w1, hw1, hc1⟩, ⟨w2, hw2, hc2⟩⟩

theorem add_eq_extend (fs : MegaFS) (n : Node) : fs.add n = fs.extend [n] := rfl

theorem extend_extend (fs : MegaFS) (a b : List Node) :
    (fs.extend a).extend b = fs.extend (a ++ b) := by
  simp [MegaFS.extend, List.append_assoc]

theorem extend_nil (fs : MegaFS) : fs.extend [] = fs := by
  simp [MegaFS.extend]

@[simp] theorem extend_root (fs : MegaFS) (e : List Node) : (fs.extend e).GetRoot = fs.GetRoot := rfl
@[simp] theorem extend_trash (fs : MegaFS) (e : List Node) : (fs.extend e).GetTrash = fs.GetTrash := rfl

theorem foldl_max_le (l : List Nat) (a : Nat) : a ≤ l.foldl max a := by
  induction l generalizing a with
  | nil => exact Nat.le_refl _
  | cons x xs ih => exact Nat.le_trans (Nat.le_max_left a x) (ih (max a x))

theorem foldl_max_mem (l : List Nat) (a x : Nat) (hx : x ∈ l) : x ≤ l.foldl max a := by
  induction l generalizing a with
  | nil => cases hx
  | cons y ys ih =>
    rcases List.mem_cons.1 hx with h | h
    · subst h
      exact Nat.le_trans (Nat.le_max_right a x) (foldl_max_le ys (max a x))
    · exact ih (max a y) h

theorem fresh_gt_all (fs : MegaFS) (n : Node) (hn : n ∈ fs.allNodes) :
    n.hash < fs.fresh ∧ n.parent < fs.fresh := by
  have h : max n.hash n.parent ≤ (fs.allNodes.map (fun n => max n.hash n.parent)).foldl max 0 :=
    foldl_max_mem _ _ _ (List.mem_map.2 ⟨n, hn, rfl⟩)
  unfold MegaFS.fresh
  have h1 := Nat.le_max_left n.hash n.parent
  have h2 := Nat.le_max_right n.hash n.parent
  omega

theorem fresh_gt_node (fs : MegaFS) (n : Node) (hn : n ∈ fs.nodes) :
    n.hash < fs.fresh ∧ n.parent < fs.fresh :=
  fresh_gt_all fs n (by simp [MegaFS.allNodes, hn])

theorem fresh_gt_root (fs : MegaFS) (r : Node) (hr : fs.GetRoot = some r ∨ fs.GetTrash = some r) :
    r.hash < fs.fresh := by
  refine (fresh_gt_all fs r ?_).1
  rcases hr with hr | hr
  · simp [MegaFS.allNodes, show fs.root = some r from hr]
  · simp [MegaFS.allNodes, show fs.trash = some r from hr]

theorem children_extend (fs : MegaFS) (e : List Node) (h : Nat) :
    (fs.extend e).children h = fs.children h ++ e.filter (fun n => n.parent == h) := by
  simp [MegaFS.children, MegaFS.extend, List.filter_append]

theorem children_mem (fs : MegaFS) (h : Nat) (n : Node) (hn : n ∈ fs.children h) :
    n ∈ fs.nodes ∧ n.parent = h := by
  unfold MegaFS.children at hn
  rw [List.mem_filter] at hn
  exact ⟨hn.1, by simpa using hn.2⟩

theorem children_fresh (fs : MegaFS) : fs.children fs.fresh = [] := by
  rw [List.eq_nil_iff_forall_not_mem]
  intro n hn
  have h := children_mem fs _ n hn
  have := (fresh_gt_node fs n h.1).2
  omega


theorem walk_cons (fs : MegaFS) (h : Nat) (name : Str) (rest : List Str) :
    fs.walk h (name :: rest) =
      match (fs.children h).find? (fun n => n.name == name) with
      | none => ([], some Err.ENOENT)
      | some n => (n :: (fs.walk n.hash rest).1, (fs.walk n.hash rest).2) := by
  rw [MegaFS.walk]

theorem endHash_nil (h : Nat) : endHash h [] = h := rfl

theorem endHash_cons (h : Nat) (n : Node) (nodes : List Node) :
    endHash h (n :: nodes) = endHash n.hash nodes := by
  unfold endHash
  cases nodes with
  | nil => simp
  | cons a b =>
    rw [List.getLast?_cons_cons]
    cases hl : (a :: b).getLast? with
    | none => simp at hl
    | some x => rfl

theorem endHash_append_singleton (h : Nat) (nodes : List Node) (n : Node) :
    endHash h (nodes ++ [n]) = n.hash := by
  simp [endHash]

/-- A walk that matched every name keeps its result when nodes are added. -/
theorem walk_extend_full (fs : MegaFS) (e : List Node) (h : Nat) (ns : List Str)
    (nodes : List Node) (hw : fs.walk h ns = (nodes, none)) :
    (fs.extend e).walk h ns = (nodes, none) := by
  induction ns generalizing h nodes with
  | nil =>
    rw [walk_nil] at hw
    rw [walk_nil]
    exact hw
  | cons name rest ih =>
    rw [walk_cons] at hw
    rw [walk_cons, children_extend, List.find?_append]
    cases hf : (fs.children h).find? (fun n => n.name == name) with
    | none => rw [hf] at hw; simp at hw
    | some n =>
      rw [hf] at hw
      simp only [Prod.mk.injEq] at hw
      obtain ⟨h1, h2⟩ := hw
      have := ih n.hash (fs.walk n.hash rest).1 (by rw [← h2])
      simp only [Option.or_some]
      rw [this, ← h1]

/-- The nodes of a walk are nodes of the tree. -/
theorem walk_mem (fs : MegaFS) (h : Nat) (ns : List Str) :
    ∀ x ∈ (fs.walk h ns).1, x ∈ fs.nodes := by
  induction ns generalizing h with
  | nil => simp [walk_nil]
  | cons name rest ih =>
    rw [walk_cons]
    cases hf : (fs.children h).find? (fun n => n.name == name) with
    | none => simp
    | some n =>
      intro x hx
      simp only [List.mem_cons] at hx
      rcases hx with hx | hx
      · subst hx
        exact (children_mem fs h _ (List.mem_of_find?_eq_some hf)).1
      · exact ih n.hash x hx

/-- A walk ends without error exactly when it matched every name, and its only error is
`ENOENT`. -/
theorem walk_result (fs : MegaFS) (h : Nat) (ns : List Str) :
    ((fs.walk h ns).2 = none ∧ (fs.walk h ns).1.length = ns.length) ∨
    ((fs.walk h ns).2 = some Err.ENOENT ∧ (fs.walk h ns).1.length < ns.length) := by
  induction ns generalizing h with
  | nil => simp [walk_nil]
  | cons name rest ih =>
    rw [walk_cons]
    cases hf : (fs.children h).find? (fun n => n.name == name) with
    | none => simp
    | some n =>
      rcases ih n.hash with h1 | h1
      · left; simp [h1.1, h1.2]
      · right; simp [h1.1, h1.2]

/-- A walk over a concatenation continues below the last node matched for the first
part. -/
theorem walk_append (fs : MegaFS) (h : Nat) (pre rest : List Str) (nodes : List Node)
    (hw : fs.walk h pre = (nodes, none)) :
    fs.walk h (pre ++ rest) =
      (nodes ++ (fs.walk (endHash h nodes) rest).1, (fs.walk (endHash h nodes) rest).2) := by
  induction pre generalizing h nodes with
  | nil =>
    rw [walk_nil] at hw
    simp only [Prod.mk.injEq] at hw
    rw [← hw.1]
    simp [endHash_nil]
  | cons name pre1 ih =>
    rw [walk_cons] at hw
    rw [List.cons_append, walk_cons]
    cases hf : (fs.children h).find? (fun n => n.name == name) with
    | none => rw [hf] at hw; simp at hw
    | some n =>
      rw [hf] at hw
      simp only [Prod.mk.injEq] at hw
      obtain ⟨h1, h2⟩ := hw
      have := ih n.hash (fs.walk n.hash pre1).1 (by rw [← h2])
      simp only
      rw [this, ← h1, endHash_cons]
      simp

/-- A walk that stops early matched a prefix of the names and found no child bearing
the next name below the last matched node. -/
theorem walk_stop (fs : MegaFS) (h : Nat) (ns : List Str) (nodes : List Node) (e : Err)
    (hw : fs.walk h ns = (nodes, some e)) :
    ∃ pre name rest, ns = pre ++ name :: rest ∧ fs.walk h pre = (nodes, none) ∧
      pre.length = nodes.length ∧
      (fs.children (endHash h nodes)).find? (fun n => n.name == name) = none := by
  induction ns generalizing h nodes with
  | nil => rw [walk_nil] at hw; simp at hw
  | cons name rest ih =>
    rw [walk_cons] at hw
    cases hf : (fs.children h).find? (fun n => n.name == name) with
    | none =>
      rw [hf] at hw
      simp only [Prod.mk.injEq] at hw
      refine ⟨[], name, rest, rfl, ?_, ?_, ?_⟩
      · rw [walk_nil, ← hw.1]
      · rw [← hw.1]; rfl
      · rw [← hw.1, endHash_nil]; exact hf
    | some n =>
      rw [hf] at hw
      simp only [Prod.mk.injEq] at hw
      obtain ⟨h1, h2⟩ := hw
      obtain ⟨pre, nm, rs, hns, hpre, hlen, hnone⟩ :=
        ih n.hash (fs.walk n.hash rest).1 (by rw [← h2])
      refine ⟨name :: pre, nm, rs, by rw [hns]; rfl, ?_, ?_, ?_⟩
      · rw [walk_cons, hf]
        simp only
        rw [hpre, ← h1]
      · rw [← h1]; simp [hlen]
      · rw [← h1, endHash_cons]; exact hnone

theorem CreateDir_some (fs : MegaFS) (w : World) (name : Str) (p : Node) :
    CreateDir fs w name (some p) =
      match w.faults.head?.join with
      | some e => ((none, some e), fs,
          { w with faults := w.faults.tail, calls := w.calls ++ [Call.CreateDir name p.hash] })
      | none => ((some ⟨fs.fresh, p.hash, name, NodeType.FOLDER, 0⟩, none),
          fs.add ⟨fs.fresh, p.hash, name, NodeType.FOLDER, 0⟩,
          { w with faults := w.faults.tail, calls := w.calls ++ [Call.CreateDir name p.hash] }) := by
  unfold CreateDir World.invoke
  generalize w.faults.head?.join = x
  cases x <;> rfl

/-- The creation loop of `mkpath`, when it returns nil: it has created one directory
per remaining segment, in order, each below the previous one, and the remaining
segments now resolve to the created directories. -/
theorem mkpathLoop_spec (rest : List Str) :
    ∀ (pre : List Str) (p : Node) (fs : MegaFS) (w : World) (fs1 : MegaFS) (w1 : World),
    p.hash < fs.fresh →
    (∀ name, rest.head? = some name →
      (fs.children p.hash).find? (fun n => n.name == name) = none) →
    mkpathLoop (pre ++ rest) rest.length pre.length (some p) fs w = some (none, fs1, w1) →
    ∃ created : List Node,
      fs1 = fs.extend created ∧
      created.map (fun c => c.name) = rest ∧
      (∀ c ∈ created, c.ntype = NodeType.FOLDER) ∧
      fs1.walk p.hash rest = (created, none) ∧
      created.map (fun c => c.parent) = (p.hash :: created.map (fun c => c.hash)).dropLast ∧
      w1 = { w with faults := w.faults.drop created.length,
                    calls := w.calls ++ created.map (fun c => Call.CreateDir c.name c.parent) } := by
  induction rest with
  | nil =>
    intro pre p fs w fs1 w1 _ _ hrun
    simp only [List.length_nil, mkpathLoop, Option.some.injEq, Prod.mk.injEq, true_and] at hrun
    refine ⟨[], ?_, rfl, by simp, ?_, by simp, ?_⟩
    · rw [extend_nil]; exact hrun.1.symm
    · rw [walk_nil]
    · rw [← hrun.2]; simp
  | cons name rest1 ih =>
    intro pre p fs w fs1 w1 hp hnf hrun
    have hidx : (pre ++ name :: rest1)[pre.length]? = some name := by
      rw [List.getElem?_append_right (Nat.le_refl _)]
      simp
    rw [List.length_cons, mkpathLoop, hidx] at hrun
    simp only at hrun
    rw [CreateDir_some] at hrun
    cases hfault : w.faults.head?.join with
    | some e => rw [hfault] at hrun; simp at hrun
    | none =>
      rw [hfault] at hrun
      simp only at hrun
      have hd : (⟨fs.fresh, p.hash, name, NodeType.FOLDER, 0⟩ : Node) ∈
          (fs.add ⟨fs.fresh, p.hash, name, NodeType.FOLDER, 0⟩).nodes := by
        simp [MegaFS.add]
      have hdfresh := (fresh_gt_node _ _ hd).1
      have hchild : (fs.add ⟨fs.fresh, p.hash, name, NodeType.FOLDER, 0⟩).children fs.fresh = [] := by
        rw [add_eq_extend, children_extend, children_fresh]
        have : p.hash ≠ fs.fresh := by omega
        simp [this]
      have hrun2 : mkpathLoop ((pre ++ [name]) ++ rest1) rest1.length (pre ++ [name]).length
          (some ⟨fs.fresh, p.hash, name, NodeType.FOLDER, 0⟩)
          (fs.add ⟨fs.fresh, p.hash, name, NodeType.FOLDER, 0⟩)
          { w with faults := w.faults.tail, calls := w.calls ++ [Call.CreateDir name p.hash] }
          = some (none, fs1, w1) := by
        rw [List.append_assoc, List.length_append]
        exact hrun
      obtain ⟨created, hfs, hnames, hfold, hwalk, hchain, hw⟩ :=
        ih (pre ++ [name]) _ _ _ fs1 w1 hdfresh
          (by intro nm _; simp only; rw [hchild]; rfl) hrun2
      refine ⟨⟨fs.fresh, p.hash, name, NodeType.FOLDER, 0⟩ :: created, ?_, ?_, ?_, ?_, ?_, ?_⟩
      · rw [hfs, add_eq_extend, extend_extend]; rfl
      · simp [hnames]
      · intro c hc
        rcases List.mem_cons.1 hc with h | h
        · rw [h]
        · exact hfold c h
      · rw [walk_cons]
        have hfind : (fs1.children p.hash).find? (fun n => n.name == name)
            = some ⟨fs.fresh, p.hash, name, NodeType.FOLDER, 0⟩ := by
          rw [hfs, add_eq_extend, extend_extend, children_extend, List.find?_append,
            hnf name rfl]
          simp
        rw [hfind]
        simp only
        rw [hwalk]
      · simp only [List.map_cons]
        rw [hchain]
        cases created with
        | nil => simp
        | cons a b => simp [List.dropLast]
      · rw [hw]
        simp [List.drop_succ_cons, List.append_assoc]

theorem getLookupParams_extend (t : Str) (fs : MegaFS) (e : List Node) :
    getLookupParams t (fs.extend e) = getLookupParams t fs := rfl

theorem getLookupParams_root (t : Str) (fs : MegaFS) (root : Option Node) (segs : List Str)
    (h : getLookupParams t fs = .ok (root, segs)) :
    root = fs.GetRoot ∨ root = fs.GetTrash := by
  unfold getLookupParams at h
  split at h
  · split at h
    · cases h
    · split at h
      · simp only [Except.ok.injEq, Prod.mk.injEq] at h; exact Or.inl h.1.symm
      · split at h
        · simp only [Except.ok.injEq, Prod.mk.injEq] at h; exact Or.inr h.1.symm
        · cases h
  · cases h

theorem PathLookup_extend_full (fs : MegaFS) (e : List Node) (root : Option Node)
    (segs : List Str) (nodes : List Node) (h : fs.PathLookup root segs = (nodes, none)) :
    (fs.extend e).PathLookup root segs = (nodes, none) := by
  cases root with
  | none => simp [MegaFS.PathLookup] at h
  | some r => exact walk_extend_full fs e r.hash segs nodes h

theorem dirReady_extend (fs : MegaFS) (e : List Node) (p : Str) (h : dirReady fs p) :
    dirReady (fs.extend e) p := by
  obtain ⟨root, segs, hparse, hrest⟩ := h
  refine ⟨root, segs, by rw [getLookupParams_extend]; exact hparse, ?_⟩
  rcases hrest with h0 | ⟨nodes, last, hlook, hlast, hfolder⟩
  · exact Or.inl h0
  · exact Or.inr ⟨nodes, last, PathLookup_extend_full fs e root segs nodes hlook, hlast, hfolder⟩

/-- On a path that already exists as directories `mkpath` returns nil and changes
nothing. -/
theorem dirReady_mkpathFS (fs : MegaFS) (p : Str) (h : dirReady fs p) (v : World) :
    mkpathFS fs v p = some (none, fs, v) := by
  obtain ⟨root, segs, hparse, hrest⟩ := h
  unfold mkpathFS
  rw [hparse]
  simp only
  rcases hrest with h0 | ⟨nodes, last, hlook, hlast, hfolder⟩
  · subst h0; simp
  · have hn : nodes ≠ [] := by intro h; rw [h] at hlast; simp at hlast
    have hpos : nodes.length > 0 := List.length_pos.2 hn
    have hseg : segs.length > 0 := by
      cases root with
      | none => simp [MegaFS.PathLookup] at hlook
      | some r =>
        have := walk_result fs r.hash segs
        simp only [MegaFS.PathLookup] at hlook
        rw [hlook] at this
        simp at this
        omega
    rw [if_pos hseg, hlook]
    simp only [hpos, if_true]
    rw [← List.getLast?_eq_getElem?, hlast]
    simp [hfolder]


theorem endHash_lt_fresh (fs : MegaFS) (r : Node) (nodes : List Node)
    (hr : r.hash < fs.fresh) (hn : ∀ x ∈ nodes, x ∈ fs.nodes) :
    endHash r.hash nodes < fs.fresh := by
  unfold endHash
  cases hl : nodes.getLast? with
  | none => exact hr
  | some n => exact (fresh_gt_node fs n (hn n (List.mem_of_getLast?_eq_some hl))).1

/-- What a `mkpath` that returns nil has done: it created one FOLDER per segment that
the lookup had not matched, in segment order, the first below the deepest matched node
(the root when nothing matched) and each next one below the one created before it; one
`CreateDir` call per created directory; and the path now exists as directories. -/
theorem mkpathFS_ok (fs : MegaFS) (w : World) (p : Str) (fs1 : MegaFS) (w1 : World)
    (h : mkpathFS fs w p = some (none, fs1, w1)) :
    ∃ root segs created,
      getLookupParams (MEGA_ROOT ++ ":/".toList ++ p) fs = .ok (root, segs) ∧
      fs1 = fs.extend created ∧ dirReady fs1 p ∧
      created.map (fun c => c.name) = segs.drop (fs.PathLookup root segs).1.length ∧
      (∀ c ∈ created, c.ntype = NodeType.FOLDER) ∧
      created.map (fun c => c.parent) =
        (endHash ((root.map (fun r => r.hash)).getD 0) (fs.PathLookup root segs).1
          :: created.map (fun c => c.hash)).dropLast ∧
      w1 = { w with faults := w.faults.drop created.length,
                    calls := w.calls ++ created.map (fun c => Call.CreateDir c.name c.parent) } := by
  unfold mkpathFS at h
  cases hparse : getLookupParams (MEGA_ROOT ++ ":/".toList ++ p) fs with
  | error e => rw [hparse] at h; simp at h
  | ok rs =>
    obtain ⟨root, segs⟩ := rs
    rw [hparse] at h
    simp only at h
    have hroot := getLookupParams_root _ fs root segs hparse
    by_cases hseg : segs.length > 0
    · rw [if_pos hseg] at h
      cases root with
      | none => simp [MegaFS.PathLookup] at h
      | some r =>
        have hres := walk_result fs r.hash segs
        cases hlook : fs.walk r.hash segs with
        | mk nodes err =>
          simp only [MegaFS.PathLookup, hlook] at h hres ⊢
          rcases hres with ⟨he, hlen⟩ | ⟨he, hlen⟩
          · -- every segment matched
            subst he
            have hpos : nodes.length > 0 := by omega
            simp only [hpos, if_true] at h
            cases hnode : nodes[nodes.length - 1]? with
            | none => rw [hnode] at h; simp at h
            | some n =>
              rw [hnode] at h
              simp only at h
              split at h
              · simp at h
              · rename_i hfolder
                simp only [Option.some.injEq, Prod.mk.injEq, true_and] at h
                obtain ⟨rfl, rfl⟩ := h
                refine ⟨some r, segs, [], rfl, (extend_nil fs).symm, ?_, ?_, by simp, by simp,
                  by simp⟩
                · refine ⟨some r, segs, hparse, Or.inr ⟨nodes, n, ?_, ?_, ?_⟩⟩
                  · simp only [MegaFS.PathLookup]; exact hlook
                  · rw [List.getLast?_eq_getElem?]; exact hnode
                  · simpa using hfolder
                · simp [MegaFS.PathLookup, hlook, hlen]
          · -- the lookup stopped early
            subst he
            obtain ⟨pre, name, rest, hns, hpre, hplen, hnone⟩ := walk_stop fs r.hash segs nodes _ hlook
            have hmem : ∀ x ∈ nodes, x ∈ fs.nodes := by
              have := walk_mem fs r.hash segs
              rw [hlook] at this
              exact this
            have hrfresh : r.hash < fs.fresh := by
              apply fresh_gt_root
              rcases hroot with h1 | h1
              · exact Or.inl h1.symm
              · exact Or.inr h1.symm
            obtain ⟨pnode, hpnode, hphash⟩ : ∃ pn : Node,
                (if nodes.length > 0 then nodes[nodes.length - 1]? else some r) = some pn ∧
                pn.hash = endHash r.hash nodes := by
              by_cases hp : nodes.length > 0
              · rw [if_pos hp, ← List.getLast?_eq_getElem?]
                cases hl : nodes.getLast? with
                | none => simp at hl; rw [hl] at hp; simp at hp
                | some x => exact ⟨x, rfl, by simp [endHash, hl]⟩
              · rw [if_neg hp]
                have : nodes = [] := by
                  cases nodes with
                  | nil => rfl
                  | cons a b => simp at hp
                exact ⟨r, rfl, by rw [this]; rfl⟩
            rw [hpnode] at h
            simp only at h
            have hcount : segs.length - nodes.length = (name :: rest).length := by
              rw [hns, List.length_append, hplen]; omega
            rw [hcount, ← hplen] at h
            have h2 : mkpathLoop (pre ++ name :: rest) (name :: rest).length pre.length
                (some pnode) fs w = some (none, fs1, w1) := by
              rw [← hns]; exact h
            obtain ⟨created, hfs, hnames, hfold, hwalk, hchain, hw⟩ :=
              mkpathLoop_spec (name :: rest) pre pnode fs w fs1 w1
                (by rw [hphash]; exact endHash_lt_fresh fs r nodes hrfresh hmem)
                (by
                  intro nm hnm
                  simp only [List.head?_cons, Option.some.injEq] at hnm
                  subst hnm
                  rw [hphash]; exact hnone)
                h2
            have hcne : created ≠ [] := by
              intro hc; rw [hc] at hnames; simp at hnames
            refine ⟨some r, segs, created, rfl, hfs, ?_, ?_, hfold, ?_, hw⟩
            · refine ⟨some r, segs, by rw [hfs, getLookupParams_extend]; exact hparse, Or.inr ?_⟩
              obtain ⟨last, hlast⟩ : ∃ last, created.getLast? = some last := by
                cases hl : created.getLast? with
                | none => simp at hl; exact absurd hl hcne
                | some x => exact ⟨x, rfl⟩
              refine ⟨nodes ++ created, last, ?_, ?_, hfold last (List.mem_of_getLast?_eq_some hlast)⟩
              · simp only [MegaFS.PathLookup]
                have hpre1 : fs1.walk r.hash pre = (nodes, none) := by
                  rw [hfs]; exact walk_extend_full fs created r.hash pre nodes hpre
                rw [hns, walk_append fs1 r.hash pre (name :: rest) nodes hpre1, ← hphash, hwalk]
              · rw [List.getLast?_append, hlast]; rfl
            · rw [hnames]
              simp only [MegaFS.PathLookup, hlook]
              rw [← hplen, hns]
              simp
            · rw [hchain, hphash]
              simp only [MegaFS.PathLookup, hlook, Option.map_some', Option.getD_some]
    · rw [if_neg hseg] at h
      simp only [Option.some.injEq, Prod.mk.injEq, true_and] at h
      obtain ⟨rfl, rfl⟩ := h
      have hnil : segs = [] := by
        cases segs with
        | nil => rfl
        | cons a b => simp at hseg
      subst hnil
      refine ⟨root, [], [], rfl, (extend_nil fs).symm, ⟨root, [], hparse, Or.inl rfl⟩, by simp,
        by simp, by simp, by simp⟩




/-- C7: when `mkpath` of a path returns nil, a second `mkpath` of the same path on the
resulting state returns nil as well and leaves the state as it is (no `CreateDir` call);
the first call has invoked `CreateDir` exactly once per segment that the lookup had not
matched, in segment order, the first below the deepest matched node (the root when
nothing matched) and each next one below the directory created just before. -/
theorem mkpath_idempotent (w : World) (p : Str) (w1 : World)
    (h : mkpath w p = some (none, w1)) :
    mkpath w1 p = some (none, w1) ∧
    ∃ fs root segs created,
      w.mega = some fs ∧
      getLookupParams (MEGA_ROOT ++ ":/".toList ++ p) fs = .ok (root, segs) ∧
      w1.mega = some (fs.extend created) ∧
      created.map (fun c => c.name) = segs.drop (fs.PathLookup root segs).1.length ∧
      (∀ c ∈ created, c.ntype = NodeType.FOLDER) ∧
      created.map (fun c => c.parent) =
        (endHash ((root.map (fun r => r.hash)).getD 0) (fs.PathLookup root segs).1
          :: created.map (fun c => c.hash)).dropLast ∧
      w1.calls = w.calls ++ created.map (fun c => Call.CreateDir c.name c.parent) := by
  unfold mkpath at h
  cases hm : w.mega with
  | none => rw [hm] at h; simp at h
  | some fs =>
    rw [hm] at h
    simp only at h
    cases hrun : mkpathFS fs w p with
    | none => rw [hrun] at h; simp at h
    | some r =>
      obtain ⟨err, fs1, v⟩ := r
      rw [hrun] at h
      simp only [Option.some.injEq, Prod.mk.injEq] at h
      obtain ⟨rfl, rfl⟩ := h
      obtain ⟨root, segs, created, hparse, hfs, hready, hnames, hfold, hchain, hv⟩ :=
        mkpathFS_ok fs w p fs1 v hrun
      constructor
      · unfold mkpath
        simp only
        rw [dirReady_mkpathFS fs1 p hready]
      · refine ⟨fs, root, segs, created, rfl, hparse, by simp [hfs], hnames, hfold, hchain, ?_⟩
        rw [hv]

/-- C7, witness: in the sample state `mkpath` of `f/a/b` creates `a` below `f` and `b`
below `a`; repeated, it creates nothing. -/
theorem mkpath_idempotent_witness :
    mkpath demoWorld "f/a/b".toList = some (none, madeWorld) ∧
    mkpath madeWorld "f/a/b".toList = some (none, madeWorld) :=
  ⟨rfl, (mkpath_idempotent demoWorld "f/a/b".toList madeWorld rfl).1⟩

theorem uploads_append_createDirs (cs : List Call) (created : List Node) :
    uploads (cs ++ created.map (fun c => Call.CreateDir c.name c.parent)) = uploads cs := by
  unfold uploads
  rw [List.countP_append]
  have : (created.map (fun c => Call.CreateDir c.name c.parent)).countP Call.isUpload = 0 := by
    rw [List.countP_eq_zero]
    intro c hc
    obtain ⟨n, _, rfl⟩ := List.mem_map.1 hc
    simp [Call.isUpload]
  omega

theorem storeParent_some_some (root : Option Node) (nodes : List Node) (lp : Nat) (p : Node)
    (h : storeParent root nodes lp = some (some p)) :
    lp = nodes.length + 1 ∧
    ((nodes.length > 0 ∧ nodes.getLast? = some p) ∨ (nodes = [] ∧ root = some p)) := by
  unfold storeParent at h
  simp only at h
  split at h
  · rename_i h1
    simp only [Option.some.injEq] at h
    rw [← List.getLast?_eq_getElem?] at h
    exact ⟨h1.1, Or.inl ⟨h1.2, h⟩⟩
  · split at h
    · cases h
    · split at h
      · rename_i h3
        simp only [Option.some.injEq] at h
        have hn : nodes = [] := List.length_eq_zero.1 h3.1
        exact ⟨by rw [h3.2, h3.1], Or.inr ⟨hn, h⟩⟩
      · simp at h

theorem storeParent_full (root : Option Node) (nodes : List Node) :
    storeParent root nodes nodes.length = none := by
  unfold storeParent
  simp

theorem UploadFile_some (fs : MegaFS) (w : World) (file name : Str) (p : Node) (info : FileInfo)
    (hstat : w.stat file = StatResult.ok info) :
    UploadFile fs w file name (some p) =
      match w.faults.head?.join with
      | some e => ((none, some e), fs,
          { w with faults := w.faults.tail,
                   calls := w.calls ++ [Call.UploadFile file p.hash name] })
      | none => ((some ⟨fs.fresh, p.hash, name, NodeType.FILE, info.size⟩, none),
          fs.add ⟨fs.fresh, p.hash, name, NodeType.FILE, info.size⟩,
          { w with faults := w.faults.tail,
                   calls := w.calls ++ [Call.UploadFile file p.hash name] }) := by
  unfold UploadFile World.invoke
  simp only [hstat]
  generalize w.faults.head?.join = x
  cases x <;> rfl


/-- The lookup that `transfer_store` performs for the address of the key. -/
theorem storeResolved_eq (fs : MegaFS) (v : World) (key file fullpath : Str) (info : FileInfo)
    (root : Option Node) (segs : List Str)
    (hparse : getLookupParams fullpath fs = .ok (root, segs)) :
    storeResolved fs v key file fullpath info =
      (if ((if segs.length > 0 then fs.PathLookup root segs else ([], none)).2 ≠ none ∧
          (if segs.length > 0 then fs.PathLookup root segs else ([], none)).2 ≠ some Err.ENOENT)
        then storeFailure v key (if segs.length > 0 then fs.PathLookup root segs else ([], none)).2
        else
          match storeParent root (if segs.length > 0 then fs.PathLookup root segs else ([], none)).1
              segs.length with
          | none => storeSuccess v key
          | some node =>
            match fs.GetChildren node with
            | (_, some e) => storeFailure v key (some e)
            | (children, none) =>
              match children.find? (fun c => c.name == path.Base file) with
              | some c =>
                if info.size = c.size then storeSuccess v key
                else storeFailure v key (some Err.EFILE_EXISTS)
              | none =>
                match UploadFile fs v file (path.Base file) node with
                | ((_, some e), fs1, w4) => storeFailure { w4 with mega := some fs1 } key (some e)
                | ((_, none), fs1, w4) => storeSuccess { w4 with mega := some fs1 } key) := by
  unfold storeResolved
  simp only [hparse]

theorem storeResolved_true (fs : MegaFS) (w3 : World) (key file fullpath : Str) (info : FileInfo)
    (root : Option Node) (segs : List Str) (wA : World)
    (hparse : getLookupParams fullpath fs = .ok (root, segs))
    (hstat : w3.stat file = StatResult.ok info)
    (hrun : storeResolved fs w3 key file fullpath info = some (true, wA)) :
    (wA = w3.print "TRANSFER-SUCCESS STORE " (key ++ nl) ∧
      ∀ v, storeResolved fs v key file fullpath info = storeSuccess v key) ∨
    (∃ r p nodes pre s,
      root = some r ∧ segs = pre ++ [s] ∧ fs.walk r.hash pre = (nodes, none) ∧
      p.hash = endHash r.hash nodes ∧ p.hash < fs.fresh ∧
      storeParent (some r) nodes segs.length = some (some p) ∧
      (fs.children p.hash).find? (fun n => n.name == s) = none ∧
      (fs.children p.hash).find? (fun n => n.name == path.Base file) = none ∧
      wA = World.print
        { w3 with faults := w3.faults.tail,
                  calls := w3.calls ++ [Call.UploadFile file p.hash (path.Base file)],
                  mega := some (fs.add (uploaded fs p file info)) }
        "TRANSFER-SUCCESS STORE " (key ++ nl)) := by
  have hroot := getLookupParams_root _ fs root segs hparse
  have heq := storeResolved_eq fs w3 key file fullpath info root segs hparse
  rw [hrun] at heq
  generalize hres : (if segs.length > 0 then fs.PathLookup root segs else ([], none)) = res at heq
  have hall : ∀ v, storeResolved fs v key file fullpath info = _ :=
    fun v => storeResolved_eq fs v key file fullpath info root segs hparse
  simp only [hres] at hall
  by_cases herr : res.2 ≠ none ∧ res.2 ≠ some Err.ENOENT
  · rw [if_pos herr] at heq
    simp [storeFailure] at heq
  · rw [if_neg herr] at heq
    simp only [if_neg herr] at hall
    cases hsp : storeParent root res.1 segs.length with
    | none =>
      rw [hsp] at heq
      simp only [storeSuccess, Option.some.injEq, Prod.mk.injEq, true_and] at heq
      left
      refine ⟨heq, fun v => ?_⟩
      rw [hall v, hsp]
    | some node =>
      rw [hsp] at heq
      simp only at heq
      cases node with
      | none => simp [MegaFS.GetChildren, storeFailure] at heq
      | some p =>
        simp only [MegaFS.GetChildren] at heq
        cases hfind : (fs.children p.hash).find? (fun c => c.name == path.Base file) with
        | some c =>
          rw [hfind] at heq
          simp only at heq
          by_cases hsize : info.size = c.size
          · rw [if_pos hsize] at heq
            simp only [storeSuccess, Option.some.injEq, Prod.mk.injEq, true_and] at heq
            left
            refine ⟨heq, fun v => ?_⟩
            rw [hall v, hsp]
            simp only [MegaFS.GetChildren, hfind, if_pos hsize]
          · rw [if_neg hsize] at heq
            simp [storeFailure] at heq
        | none =>
          rw [hfind, UploadFile_some fs w3 file _ p info hstat] at heq
          simp only at heq
          cases hfault : w3.faults.head?.join with
          | some e => rw [hfault] at heq; simp [storeFailure] at heq
          | none =>
            rw [hfault] at heq
            simp only [storeSuccess, Option.some.injEq, Prod.mk.injEq, true_and] at heq
            right
            obtain ⟨hlp, hp⟩ := storeParent_some_some root res.1 segs.length p hsp
            have hpos : segs.length > 0 := by omega
            rw [if_pos hpos] at hres
            cases root with
            | none =>
              simp only [MegaFS.PathLookup] at hres
              rw [← hres] at herr
              simp at herr
            | some r =>
              simp only [MegaFS.PathLookup] at hres
              have hwr := walk_result fs r.hash segs
              rw [hres] at hwr
              have herr2 : res.2 = some Err.ENOENT := by
                rcases hwr with ⟨_, h2⟩ | ⟨h1, _⟩
                · omega
                · exact h1
              have hwalk : fs.walk r.hash segs = (res.1, some Err.ENOENT) := by
                rw [hres, ← herr2]
              obtain ⟨pre, s, rest, hns, hpre, hplen, hnone⟩ :=
                walk_stop fs r.hash segs res.1 _ hwalk
              have hrest : rest = [] := by
                have := congrArg List.length hns
                simp only [List.length_append, List.length_cons] at this
                apply List.length_eq_zero.1
                omega
              subst hrest
              have hmem : ∀ x ∈ res.1, x ∈ fs.nodes := by
                have := walk_mem fs r.hash segs
                rw [hres] at this
                exact this
              have hrfresh : r.hash < fs.fresh := by
                apply fresh_gt_root
                rcases hroot with h1 | h1
                · exact Or.inl h1.symm
                · exact Or.inr h1.symm
              have hph : p.hash = endHash r.hash res.1 := by
                rcases hp with ⟨_, hl⟩ | ⟨hn, hr⟩
                · simp [endHash, hl]
                · rw [hn]
                  simp only [Option.some.injEq] at hr
                  rw [hr]; rfl
              refine ⟨r, p, res.1, pre, s, rfl, hns, hpre, hph, ?_, hsp, ?_, hfind, ?_⟩
              · rw [hph]; exact endHash_lt_fresh fs r res.1 hrfresh hmem
              · rw [hph]; exact hnone
              · exact heq


theorem children_add_uploaded (fs : MegaFS) (p : Node) (file : Str) (info : FileInfo) :
    (fs.add (uploaded fs p file info)).children p.hash =
      fs.children p.hash ++ [uploaded fs p file info] := by
  rw [add_eq_extend, children_extend]
  simp [uploaded]

/-- The lookup of the address after the upload: the uploaded node is found as the last
segment exactly when its name is that segment. -/
theorem walk_after_upload (fs : MegaFS) (r p : Node) (file : Str) (info : FileInfo)
    (nodes : List Node) (pre : List Str) (s : Str)
    (hpre : fs.walk r.hash pre = (nodes, none))
    (hph : p.hash = endHash r.hash nodes)
    (hs : (fs.children p.hash).find? (fun n => n.name == s) = none) :
    (fs.add (uploaded fs p file info)).walk r.hash (pre ++ [s]) =
      if path.Base file = s then (nodes ++ [uploaded fs p file info], none)
      else (nodes, some Err.ENOENT) := by
  have hpre1 : (fs.add (uploaded fs p file info)).walk r.hash pre = (nodes, none) := by
    rw [add_eq_extend]; exact walk_extend_full fs _ r.hash pre nodes hpre
  rw [walk_append _ r.hash pre [s] nodes hpre1, ← hph, walk_cons, children_add_uploaded,
    List.find?_append, hs]
  by_cases hb : path.Base file = s
  · have : (uploaded fs p file info).name = s := hb
    simp [this, hb, walk_nil]
  · have : ¬ (uploaded fs p file info).name = s := hb
    simp [this, hb]

/-- After the upload a Store of the same key and file succeeds without any remote
call, in whatever state of the process. -/
theorem storeResolved_after_upload (fs : MegaFS) (key file fullpath : Str) (info : FileInfo)
    (r p : Node) (nodes : List Node) (pre : List Str) (s : Str)
    (hparse : getLookupParams fullpath fs = .ok (some r, pre ++ [s]))
    (hpre : fs.walk r.hash pre = (nodes, none))
    (hph : p.hash = endHash r.hash nodes)
    (hsp : storeParent (some r) nodes (pre ++ [s]).length = some (some p))
    (hs : (fs.children p.hash).find? (fun n => n.name == s) = none)
    (hb : (fs.children p.hash).find? (fun n => n.name == path.Base file) = none) (v : World) :
    storeResolved (fs.add (uploaded fs p file info)) v key file fullpath info
      = storeSuccess v key := by
  have hparse1 : getLookupParams fullpath (fs.add (uploaded fs p file info))
      = .ok (some r, pre ++ [s]) := by
    rw [add_eq_extend, getLookupParams_extend]; exact hparse
  rw [storeResolved_eq _ v key file fullpath info _ _ hparse1]
  have hpos : (pre ++ [s]).length > 0 := by simp
  have hlen : pre.length = nodes.length := by
    have := walk_result fs r.hash pre
    rw [hpre] at this
    simp at this
    omega
  simp only [if_pos hpos, MegaFS.PathLookup]
  rw [walk_after_upload fs r p file info nodes pre s hpre hph hs]
  by_cases hname : path.Base file = s
  · simp only [if_pos hname]
    have hl : (pre ++ [s]).length = (nodes ++ [uploaded fs p file info]).length := by
      simp [hlen]
    rw [hl, storeParent_full]
    simp
  · simp only [if_neg hname]
    rw [hsp]
    simp only [MegaFS.GetChildren, children_add_uploaded, List.find?_append, hb]
    simp [uploaded]

theorem afterHashes_fields (w : World) (key : Str) :
    (afterHashes w key).mega = w.mega ∧ (afterHashes w key).stat = w.stat ∧
    (afterHashes w key).calls = w.calls ∧ (afterHashes w key).faults = w.faults ∧
    (afterHashes w key).folder = w.folder ∧
    (afterHashes w key).stdout = w.stdout ++
      ["DIRHASH ".toList ++ (key ++ nl), "DIRHASH ".toList ++ (key ++ nl)] := by
  have h1 := getDirHash_fields w key
  have h2 := getFullPath_fields (getDirHash w key).2 key
  unfold afterHashes
  refine ⟨by rw [h2.1, h1.1], by rw [h2.2.1, h1.2.1], by rw [h2.2.2.1, h1.2.2.1],
    by rw [h2.2.2.2.1, h1.2.2.2.1], by rw [h2.2.2.2.2.1, h1.2.2.2.2.1], ?_⟩
  rw [h2.2.2.2.2.2, h1.2.2.2.2.2]
  simp

theorem storePath_eq (w v : World) (key : Str) (hfolder : v.folder = w.folder)
    (hd2 : (getDirHash (getDirHash v key).2 key).1 = (getDirHash (getDirHash w key).2 key).1) :
    storePath v key = storePath w key := by
  unfold storePath getFullPath
  simp only
  rw [(getDirHash_fields v key).2.2.2.2.1, (getDirHash_fields w key).2.2.2.2.1, hfolder, hd2]

theorem storeDir_eq (w v : World) (key : Str) (hfolder : v.folder = w.folder)
    (hd1 : (getDirHash v key).1 = (getDirHash w key).1) :
    storeDir v key = storeDir w key := by
  unfold storeDir
  rw [hfolder, hd1]

/-- `transfer_store` in terms of its stages. -/
theorem transfer_store_eq (w : World) (key file : Str) :
    transfer_store w key file =
      match w.stat file with
      | StatResult.ok info =>
        if info.kind ≠ FileKind.regular then storeFailure (afterHashes w key) key none
        else
          match mkpath (afterHashes w key) (storeDir w key) with
          | none => none
          | some (some e, w3) => storeFailure w3 key (some e)
          | some (none, w3) =>
            match w3.mega with
            | none => none
            | some fs => storeResolved fs w3 key file (storePath w key) info
      | r => storeFailure (afterHashes w key) key (statErr file r) := by
  unfold transfer_store
  simp only
  have hs : (getFullPath (getDirHash w key).2 key).2.stat = w.stat := (afterHashes_fields w key).2.1
  have hf : (getFullPath (getDirHash w key).2 key).2.folder = w.folder :=
    (afterHashes_fields w key).2.2.2.2.1
  rw [hs, hf]
  rfl

/-- A Store on a state whose store directory already exists goes straight to the
resolution of the address of the key. -/
theorem transfer_store_ready (v : World) (key file : Str) (fs : MegaFS) (info : FileInfo)
    (hm : v.mega = some fs) (hready : dirReady fs (storeDir v key))
    (hstat : v.stat file = StatResult.ok info) (hreg : info.kind = FileKind.regular) :
    transfer_store v key file =
      storeResolved fs { afterHashes v key with mega := some fs } key file (storePath v key) info := by
  rw [transfer_store_eq, hstat]
  simp only [hreg, ne_eq, not_true_eq_false, if_false]
  unfold mkpath
  rw [(afterHashes_fields v key).1, hm]
  simp only
  rw [dirReady_mkpathFS fs _ hready]

/-- A Store that succeeds has found a plain local file, has made the store directory
exist, and has then resolved the address of the key successfully. -/
theorem transfer_store_true (w : World) (key file : Str) (w1 : World)
    (hrun : transfer_store w key file = some (true, w1)) :
    ∃ fs0 info fs3 created,
      w.mega = some fs0 ∧ w.stat file = StatResult.ok info ∧ info.kind = FileKind.regular ∧
      fs3 = fs0.extend created ∧ dirReady fs3 (storeDir w key) ∧
      storeResolved fs3
        { afterHashes w key with
            faults := (afterHashes w key).faults.drop created.length,
            calls := (afterHashes w key).calls ++
              created.map (fun c => Call.CreateDir c.name c.parent),
            mega := some fs3 }
        key file (storePath w key) info = some (true, w1) := by
  rw [transfer_store_eq] at hrun
  cases hstat : w.stat file with
  | notExist => rw [hstat] at hrun; simp [storeFailure] at hrun
  | failed e => rw [hstat] at hrun; simp [storeFailure] at hrun
  | ok info =>
    rw [hstat] at hrun
    simp only at hrun
    by_cases hreg : info.kind = FileKind.regular
    · simp only [hreg, ne_eq, not_true_eq_false, if_false] at hrun
      unfold mkpath at hrun
      rw [(afterHashes_fields w key).1] at hrun
      cases hm : w.mega with
      | none => rw [hm] at hrun; simp at hrun
      | some fs0 =>
        rw [hm] at hrun
        simp only at hrun
        cases hmk : mkpathFS fs0 (afterHashes w key) (storeDir w key) with
        | none => rw [hmk] at hrun; simp at hrun
        | some r =>
          obtain ⟨err, fs3, w3⟩ := r
          rw [hmk] at hrun
          simp only at hrun
          cases err with
          | some e => simp [storeFailure] at hrun
          | none =>
            simp only at hrun
            obtain ⟨root, segs, created, -, hfs, hready, -, -, -, hw3⟩ :=
              mkpathFS_ok fs0 (afterHashes w key) (storeDir w key) fs3 w3 hmk
            refine ⟨fs0, info, fs3, created, rfl, rfl, hreg, hfs, hready, ?_⟩
            rw [← hrun, hw3]
    · simp only [ne_eq, hreg, not_false_eq_true, if_true] at hrun
      simp [storeFailure] at hrun


theorem uploads_append_upload (cs : List Call) (file : Str) (h : Nat) (name : Str) :
    uploads (cs ++ [Call.UploadFile file h name]) = uploads cs + 1 := by
  unfold uploads
  rw [List.countP_append]
  simp [Call.isUpload]

/-- The two ways in which a Store succeeds: without a remote change (the key or an
object of the same name and size is already there), or by one upload below the node
that precedes the single unmatched, last segment of the address. -/
theorem transfer_store_outcome (w : World) (key file : Str) (w1 : World)
    (hrun : transfer_store w key file = some (true, w1)) :
    ∃ fs3 info, w.stat file = StatResult.ok info ∧ info.kind = FileKind.regular ∧
      dirReady fs3 (storeDir w key) ∧
      ((w1.mega = some fs3 ∧ uploads w1.calls = uploads w.calls ∧
          ∀ v, storeResolved fs3 v key file (storePath w key) info = storeSuccess v key) ∨
       (∃ r p nodes pre s,
          getLookupParams (storePath w key) fs3 = .ok (some r, pre ++ [s]) ∧
          fs3.walk r.hash pre = (nodes, none) ∧
          p.hash = endHash r.hash nodes ∧
          storeParent (some r) nodes (pre ++ [s]).length = some (some p) ∧
          (fs3.children p.hash).find? (fun n => n.name == s) = none ∧
          (fs3.children p.hash).find? (fun n => n.name == path.Base file) = none ∧
          w1.mega = some (fs3.add (uploaded fs3 p file info)) ∧
          uploads w1.calls = uploads w.calls + 1)) := by
  obtain ⟨fs0, info, fs3, created, hm, hstat, hreg, hfs, hready, hres⟩ :=
    transfer_store_true w key file w1 hrun
  obtain ⟨hm2, hs2, hc2, hf2, hfo2, ho2⟩ := afterHashes_fields w key
  obtain ⟨segs, hparse⟩ : ∃ segs, getLookupParams (storePath w key) fs3
      = .ok (fs3.GetRoot, segs) := getFullPath_parses _ key fs3
  refine ⟨fs3, info, hstat, hreg, hready, ?_⟩
  rcases storeResolved_true fs3 _ key file (storePath w key) info _ segs w1 hparse
      (by simp only [hs2]; exact hstat) hres with
    ⟨hw1, hall⟩ | ⟨r, p, nodes, pre, s, hroot, hsegs, hpre, hph, -, hsp, hs, hb, hw1⟩
  · left
    refine ⟨by rw [hw1]; rfl, ?_, hall⟩
    rw [hw1]
    simp only [print_calls, hc2]
    exact uploads_append_createDirs _ _
  · right
    refine ⟨r, p, nodes, pre, s, by rw [hparse, hroot, hsegs], hpre, hph, by rw [← hsegs]; exact hsp,
      hs, hb, by rw [hw1]; rfl, ?_⟩
    rw [hw1]
    simp only [print_calls, hc2]
    rw [uploads_append_upload, uploads_append_createDirs]

/-- C4: Store idempotence.  When `transfer_store` of a key and a local file reports
success, a second run with the same arguments, on the state the first run has left (the
same remote tree, folder and local files) and with the same `DIRHASH` replies, reports
`TRANSFER-SUCCESS STORE <key>` as well and invokes no remote operation; over the two
runs `UploadFile` is invoked at most once. -/
theorem transfer_store_idempotent (w : World) (key file : Str) (w1 v : World)
    (hrun : transfer_store w key file = some (true, w1))
    (hmega : v.mega = w1.mega) (hfolder : v.folder = w.folder) (hstat : v.stat = w.stat)
    (hcalls : v.calls = w1.calls)
    (hd1 : (getDirHash v key).1 = (getDirHash w key).1)
    (hd2 : (getDirHash (getDirHash v key).2 key).1 = (getDirHash (getDirHash w key).2 key).1) :
    ∃ v1, transfer_store v key file = some (true, v1) ∧
      v1.stdout = v.stdout ++ ["DIRHASH ".toList ++ (key ++ nl), "DIRHASH ".toList ++ (key ++ nl),
        "TRANSFER-SUCCESS STORE ".toList ++ (key ++ nl)] ∧
      v1.calls = v.calls ∧
      uploads v1.calls ≤ uploads w.calls + 1 := by
  obtain ⟨fs3, info, hst, hreg, hready, hcase⟩ := transfer_store_outcome w key file w1 hrun
  have hdir := storeDir_eq w v key hfolder hd1
  have hpath := storePath_eq w v key hfolder hd2
  obtain ⟨-, -, hc2, -, -, ho2⟩ := afterHashes_fields v key
  have hvstat : v.stat file = StatResult.ok info := by rw [hstat]; exact hst
  have key_fact : ∀ fsA, v.mega = some fsA → dirReady fsA (storeDir w key) →
      (∀ u, storeResolved fsA u key file (storePath w key) info = storeSuccess u key) →
      transfer_store v key file = storeSuccess { afterHashes v key with mega := some fsA } key := by
    intro fsA hm hr hall
    rw [transfer_store_ready v key file fsA info hm (by rw [hdir]; exact hr) hvstat hreg, hpath]
    exact hall _
  rcases hcase with ⟨hm, hup, hall⟩ | ⟨r, p, nodes, pre, s, hparse, hpre, hph, hsp, hs, hb, hm, hup⟩
  · refine ⟨_, key_fact fs3 (by rw [hmega, hm]) hready hall, ?_, ?_, ?_⟩
    · simp [ho2]
    · simp [hc2]
    · simp only [print_calls, hc2, hcalls, hup]; omega
  · refine ⟨_, key_fact _ (by rw [hmega, hm])
      (by rw [add_eq_extend]; exact dirReady_extend fs3 _ _ hready)
      (fun u => storeResolved_after_upload fs3 key file _ info r p nodes pre s hparse hpre hph
        hsp hs hb u), ?_, ?_, ?_⟩
    · simp [ho2]
    · simp [hc2]
    · simp only [print_calls, hc2, hcalls, hup]; omega

/-- C4, witness: the Store of `k1` from `/tmp/a.bin` uploads once; repeated on the
resulting state it succeeds without a remote call. -/
theorem transfer_store_idempotent_witness :
    transfer_store storeWorld "k1".toList "/tmp/a.bin".toList = some (true, storedWorld) ∧
    ∃ v1, transfer_store storedWorld "k1".toList "/tmp/a.bin".toList = some (true, v1) ∧
      v1.stdout = storedWorld.stdout ++ ["DIRHASH ".toList ++ ("k1".toList ++ nl),
        "DIRHASH ".toList ++ ("k1".toList ++ nl),
        "TRANSFER-SUCCESS STORE ".toList ++ ("k1".toList ++ nl)] ∧
      v1.calls = storedWorld.calls ∧
      uploads v1.calls ≤ uploads storeWorld.calls + 1 :=
  ⟨rfl, transfer_store_idempotent storeWorld "k1".toList "/tmp/a.bin".toList storedWorld
    storedWorld rfl rfl rfl rfl rfl rfl rfl⟩

/-- C3, counterexample: after the Store of `k1` from `/tmp/a.bin` has succeeded by
uploading, the address of `k1` does not resolve fully (the uploaded node is called
`a.bin`) and `checkPresent` of `k1` reports `CHECKPRESENT-FAILURE`. -/
theorem checkPresent_fails_after_store :
    transfer_store storeWorld "k1".toList "/tmp/a.bin".toList = some (true, storedWorld) ∧
    uploads storedWorld.calls = uploads storeWorld.calls + 1 ∧
    ∃ fs root segs w2, storedWorld.mega = some fs ∧
      getLookupParams (getFullPath storedWorld "k1".toList).1 fs = .ok (root, segs) ∧
      (fs.PathLookup root segs).1.length < segs.length ∧
      checkPresent storedWorld ["CHECKPRESENT".toList, "k1".toList] = some (false, w2) ∧
      w2.stdout.getLast? = some "CHECKPRESENT-FAILURE k1\n".toList :=
  ⟨rfl, by decide, _, some demoRoot, ["f".toList, "k1".toList], _, rfl, by decide, by decide,
    rfl, by decide⟩




theorem getFullPath_eq_storePath (w v : World) (key : Str) (hfolder : v.folder = w.folder)
    (hd : (getDirHash v key).1 = (getDirHash (getDirHash w key).2 key).1) :
    (getFullPath v key).1 = storePath w key := by
  unfold storePath getFullPath
  simp only
  rw [(getDirHash_fields w key).2.2.2.2.1, hfolder, hd]

/-- C3 (amended): after a Store of a key that succeeded by uploading, if the base name
of the local file (the name the upload uses) is the last segment of the address of the
key, that address (built with the same `DIRHASH` reply) resolves fully, so that the
full-match check of a repeated Store applies, and `checkPresent` of the key reports
`CHECKPRESENT-SUCCESS`. -/
theorem transfer_store_then_present (w : World) (key file : Str) (w1 v : World)
    (args : List Str) (fsA : MegaFS) (root : Option Node) (segs : List Str)
    (hrun : transfer_store w key file = some (true, w1))
    (hup : uploads w1.calls = uploads w.calls + 1)
    (hmega : v.mega = w1.mega) (hfolder : v.folder = w.folder)
    (hd : (getDirHash v key).1 = (getDirHash (getDirHash w key).2 key).1)
    (hargs : args[1]? = some key)
    (hfs : w1.mega = some fsA)
    (hsegs : getLookupParams (getFullPath v key).1 fsA = .ok (root, segs))
    (hbase : segs.getLast? = some (path.Base file)) :
    ∃ nodes, fsA.PathLookup root segs = (nodes, none) ∧ nodes.length = segs.length ∧
      storeParent root nodes segs.length = none ∧
      ∃ v1, checkPresent v args = some (true, v1) ∧
        v1.stdout = v.stdout ++ ["DIRHASH ".toList ++ (key ++ nl),
          "CHECKPRESENT-SUCCESS ".toList ++ (key ++ nl)] := by
  obtain ⟨fs3, info, hst, hreg, hready, hcase⟩ := transfer_store_outcome w key file w1 hrun
  rcases hcase with ⟨_, hup2, _⟩ | ⟨r, p, nodes, pre, s, hparse, hpre, hph, hsp, hs, hb, hm, _⟩
  · omega
  · rw [hm] at hfs
    simp only [Option.some.injEq] at hfs
    subst hfs
    rw [getFullPath_eq_storePath w v key hfolder hd, add_eq_extend, getLookupParams_extend,
      hparse] at hsegs
    simp only [Except.ok.injEq, Prod.mk.injEq] at hsegs
    obtain ⟨rfl, rfl⟩ := hsegs
    have hname : path.Base file = s := by
      simp at hbase
      exact hbase.symm
    have hlen : pre.length = nodes.length := by
      have := walk_result fs3 r.hash pre
      rw [hpre] at this
      simp at this
      omega
    have hwalk := walk_after_upload fs3 r p file info nodes pre s hpre hph hs
    rw [if_pos hname] at hwalk
    have hroot : (fs3.add (uploaded fs3 p file info)).root = some r := by
      have h1 := getLookupParams_root _ _ _ _ hparse
      have h2 := getFullPath_parses (getDirHash w key).2 key fs3
      obtain ⟨segs2, h2⟩ := h2
      have h3 : getLookupParams (storePath w key) fs3 = .ok (fs3.GetRoot, segs2) := h2
      rw [hparse] at h3
      simp only [Except.ok.injEq, Prod.mk.injEq] at h3
      exact h3.1.symm
    refine ⟨nodes ++ [uploaded fs3 p file info], hwalk, by simp [hlen], ?_, ?_⟩
    · have hl : (pre ++ [s]).length = (nodes ++ [uploaded fs3 p file info]).length := by
        simp [hlen]
      rw [hl, storeParent_full]
    · obtain ⟨segs3, v1, hp3, hrun3, hout3⟩ :=
        checkPresent_spec v args key _ r hargs (by rw [hmega, hm]) hroot
      have hp4 : getLookupParams (getFullPath v key).1 (fs3.add (uploaded fs3 p file info))
          = .ok (some r, pre ++ [s]) := by
        rw [getFullPath_eq_storePath w v key hfolder hd, add_eq_extend, getLookupParams_extend]
        exact hparse
      rw [hp4] at hp3
      simp only [Except.ok.injEq, Prod.mk.injEq] at hp3
      obtain ⟨hr3, hs3⟩ := hp3
      rw [← hr3, ← hs3] at hrun3 hout3
      have hfull : ((fs3.add (uploaded fs3 p file info)).PathLookup (some r) (pre ++ [s])).2 = none ∧
          ((fs3.add (uploaded fs3 p file info)).PathLookup (some r) (pre ++ [s])).1.length
            = (pre ++ [s]).length := by
        simp only [MegaFS.PathLookup]
        rw [hwalk]
        simp [hlen]
      refine ⟨v1, ?_, ?_⟩
      · rw [hrun3]; simp only [hfull, and_self, decide_True]
      · rw [hout3]; simp only [hfull, and_self, if_true]

/-- C3, witness: the Store of `k1` from `/tmp/k1`, then `checkPresent` of `k1`. -/
theorem transfer_store_then_present_witness :
    ∃ nodes, (demoFS.add ⟨4, 3, "k1".toList, NodeType.FILE, 100⟩).PathLookup (some demoRoot)
        ["f".toList, "k1".toList] = (nodes, none) ∧
      nodes.length = ["f".toList, "k1".toList].length ∧
      storeParent (some demoRoot) nodes ["f".toList, "k1".toList].length = none ∧
      ∃ v1, checkPresent keyStoredWorld ["CHECKPRESENT".toList, "k1".toList] = some (true, v1) ∧
        v1.stdout = keyStoredWorld.stdout ++ ["DIRHASH ".toList ++ ("k1".toList ++ nl),
          "CHECKPRESENT-SUCCESS ".toList ++ ("k1".toList ++ nl)] :=
  transfer_store_then_present keyFileWorld "k1".toList "/tmp/k1".toList keyStoredWorld
    keyStoredWorld ["CHECKPRESENT".toList, "k1".toList]
    (demoFS.add ⟨4, 3, "k1".toList, NodeType.FILE, 100⟩) (some demoRoot)
    ["f".toList, "k1".toList] rfl (by decide) rfl rfl rfl (by decide) rfl (by decide) (by decide)




theorem storeParent_last (root : Option Node) (nodes : List Node) (lp : Nat)
    (hlen : lp = nodes.length + 1) :
    storeParent root nodes lp = some (if nodes = [] then root else nodes.getLast?) := by
  unfold storeParent
  simp only
  cases nodes with
  | nil => simp [hlen]
  | cons a b =>
    have hpos : (a :: b).length > 0 := by simp
    simp only [hlen, hpos, and_self, if_true, ← List.getLast?_eq_getElem?]
    simp

/-- C5 (amended): a Store whose store directory exists, whose key address does not
resolve fully (only its last segment is unmatched), and for which the first object
bearing the base name of the local file at that location has a size different from the
local file's, reports `TRANSFER-FAILURE STORE <key>` with the reason `File with same
name already exists`, invokes no remote operation and leaves the remote tree as it is. -/
theorem transfer_store_conflict (w : World) (key file : Str) (fs : MegaFS) (info : FileInfo)
    (root : Option Node) (segs : List Str) (nodes : List Node) (p c : Node)
    (hm : w.mega = some fs)
    (hstat : w.stat file = StatResult.ok info) (hreg : info.kind = FileKind.regular)
    (hready : dirReady fs (storeDir w key))
    (hparse : getLookupParams (storePath w key) fs = .ok (root, segs))
    (hlook : fs.PathLookup root segs = (nodes, some Err.ENOENT))
    (hlen : segs.length = nodes.length + 1)
    (hp : (if nodes = [] then root else nodes.getLast?) = some p)
    (hchild : (fs.children p.hash).find? (fun n => n.name == path.Base file) = some c)
    (hsize : c.size ≠ info.size) :
    ∃ w1, transfer_store w key file = some (false, w1) ∧
      w1.stdout = w.stdout ++ ["DIRHASH ".toList ++ (key ++ nl), "DIRHASH ".toList ++ (key ++ nl),
        "TRANSFER-FAILURE STORE ".toList ++
          (key ++ " ".toList ++ Err.EFILE_EXISTS.text ++ nl)] ∧
      w1.calls = w.calls ∧ w1.mega = w.mega := by
  obtain ⟨hm2, -, hc2, -, -, ho2⟩ := afterHashes_fields w key
  have hpos : segs.length > 0 := by omega
  have hne : ¬ info.size = c.size := fun h => hsize h.symm
  refine ⟨World.print { afterHashes w key with mega := some fs } "TRANSFER-FAILURE STORE "
    (key ++ " ".toList ++ fmtErr (some Err.EFILE_EXISTS) ++ nl), ?_, ?_, ?_, ?_⟩
  · rw [transfer_store_ready w key file fs info hm hready hstat hreg,
      storeResolved_eq fs _ key file _ info root segs hparse]
    simp only [if_pos hpos, hlook]
    rw [storeParent_last root nodes segs.length hlen, hp]
    simp only [MegaFS.GetChildren, hchild, if_neg hne]
    simp [storeFailure]
  · simp [ho2, fmtErr]
  · simp [hc2]
  · simp [hm]

/-- C5, witness: the Store of `k1` from `/tmp/a.bin` (100 bytes) when the folder holds an
`a.bin` of 5 bytes. -/
theorem transfer_store_conflict_witness :
    ∃ w1, transfer_store conflictWorld "k1".toList "/tmp/a.bin".toList = some (false, w1) ∧
      w1.stdout = conflictWorld.stdout ++ ["DIRHASH ".toList ++ ("k1".toList ++ nl),
        "DIRHASH ".toList ++ ("k1".toList ++ nl),
        "TRANSFER-FAILURE STORE ".toList ++
          ("k1".toList ++ " ".toList ++ Err.EFILE_EXISTS.text ++ nl)] ∧
      w1.calls = conflictWorld.calls ∧ w1.mega = conflictWorld.mega :=
  transfer_store_conflict conflictWorld "k1".toList "/tmp/a.bin".toList
    { demoFS with nodes := demoFS.nodes ++
      [⟨4, 3, "a.bin".toList, NodeType.FILE, 5⟩, ⟨5, 3, "k".toList, NodeType.FILE, 5⟩] }
    ⟨FileKind.regular, 100⟩ (some demoRoot) ["f".toList, "k1".toList]
    [⟨3, 1, "f".toList, NodeType.FOLDER, 0⟩] ⟨3, 1, "f".toList, NodeType.FOLDER, 0⟩
    ⟨4, 3, "a.bin".toList, NodeType.FILE, 5⟩
    rfl (by decide) (by decide)
    ⟨some demoRoot, ["f".toList], by decide,
      Or.inr ⟨[⟨3, 1, "f".toList, NodeType.FOLDER, 0⟩], ⟨3, 1, "f".toList, NodeType.FOLDER, 0⟩,
        by decide, by decide, by decide⟩⟩
    (by decide) (by decide) (by decide) (by decide) (by decide) (by decide)

/-- C5, counterexample: the key `k` exists remotely with 5 bytes, the local file `/tmp/k`
(base name `k`) has 7 bytes, and the Store reports `TRANSFER-SUCCESS STORE k`. -/
theorem transfer_store_same_name_as_key_succeeds :
    path.Base "/tmp/k".toList = "k".toList ∧
    conflictWorld.stat "/tmp/k".toList = StatResult.ok ⟨FileKind.regular, 7⟩ ∧
    (∃ fs, conflictWorld.mega = some fs ∧
      (fs.children 3).find? (fun n => n.name == "k".toList)
        = some ⟨5, 3, "k".toList, NodeType.FILE, 5⟩) ∧
    ∃ w1, transfer_store conflictWorld "k".toList "/tmp/k".toList = some (true, w1) ∧
      w1.stdout.getLast? = some "TRANSFER-SUCCESS STORE k\n".toList ∧
      w1.calls = [] :=
  ⟨by decide, by decide, ⟨_, rfl, by decide⟩, _, rfl, by decide, by decide⟩

end MegaAnnex
